import Mathlib

/-! # Incremental HTTP/1.1 request-line parser (`httpfromtcp/internal/requests`)

A shallow embedding of `requests.go`: the pure parser (`parseRequestLine`,
`IsUpper`, `Request.parse`) and the read loop (`RequestFromReader`), together
with the few functions of Go's `strings`, `unicode` and runtime they call.

Go strings and byte slices are lists of bytes; a byte is a natural number
below 256.  An `error` is an `Option GoError` (`none` is `nil`).
-/

set_option autoImplicit false

namespace Requests

/-! ## Bytes and strings -/

abbrev Byte := Nat

abbrev GoString := List Byte

/-- The bytes of an ASCII string literal. -/
def ascii (s : String) : GoString := s.data.map Char.toNat

/-- The separator `"\r\n"`. -/
def CRLF : GoString := [13, 10]

/-- The separator `" "`. -/
def SP : GoString := [32]

/-- The literal `"HTTP/1.1"`. -/
def HTTP11 : GoString := [72, 84, 84, 80, 47, 49, 46, 49]

/-- The separator `"/"`. -/
def SLASH : GoString := [47]

/-! ## Package `strings` -/

/-- `strings.Index(s, sep)`: the index of the first instance of `sep` in `s`,
`none` for Go's `-1`. -/
def Index : GoString → GoString → Option Nat
  | [], sep => if sep.isPrefixOf [] then some 0 else none
  | c :: s, sep =>
    if sep.isPrefixOf (c :: s) then some 0 else (Index s sep).map (· + 1)

/-- `strings.Contains(s, substr)` is `Index(s, substr) >= 0`. -/
def Contains (s substr : GoString) : Bool := (Index s substr).isSome

/-- The cutting loop of `strings.genSplit` for a non-empty separator: at most
`n` cuts, each at the first instance of `sep` in what is left of `s`. -/
def genSplit (sep : GoString) : Nat → GoString → List GoString
  | 0, s => [s]
  | n + 1, s =>
    match Index s sep with
    | none => [s]
    | some m => s.take m :: genSplit sep n (s.drop (m + sep.length))

/-- `strings.Split(s, sep)` for a non-empty `sep`: there are at most
`len(s)` instances of `sep`, so `len(s)` cuts are enough. -/
def Split (s sep : GoString) : List GoString := genSplit sep s.length s

/-! ## Runes: `range` over a string, and package `unicode` -/

def RuneError : Nat := 0xFFFD

/-- A UTF-8 continuation byte (`locb <= b && b <= hicb`). -/
def isCont (b : Byte) : Bool := 0x80 ≤ b && b ≤ 0xBF

/-- The runtime's `decoderune` on a string whose first byte is not ASCII:
the rune at the head of the string and its width; an invalid or short
encoding is `RuneError` of width 1. -/
def decoderune : GoString → Nat × Nat
  | [] => (RuneError, 1)
  | b0 :: t =>
    if 0xC0 ≤ b0 ∧ b0 < 0xE0 then
      match t with
      | b1 :: _ =>
        let r := b0 % 32 * 64 + b1 % 64
        if isCont b1 ∧ 0x7F < r then (r, 2) else (RuneError, 1)
      | _ => (RuneError, 1)
    else if 0xE0 ≤ b0 ∧ b0 < 0xF0 then
      match t with
      | b1 :: b2 :: _ =>
        let r := b0 % 16 * 4096 + b1 % 64 * 64 + b2 % 64
        if isCont b1 ∧ isCont b2 ∧ 0x7FF < r ∧ ¬ (0xD800 ≤ r ∧ r ≤ 0xDFFF) then (r, 3)
        else (RuneError, 1)
      | _ => (RuneError, 1)
    else if 0xF0 ≤ b0 ∧ b0 < 0xF8 then
      match t with
      | b1 :: b2 :: b3 :: _ =>
        let r := b0 % 8 * 262144 + b1 % 64 * 4096 + b2 % 64 * 64 + b3 % 64
        if isCont b1 ∧ isCont b2 ∧ isCont b3 ∧ 0xFFFF < r ∧ r ≤ 0x10FFFF then (r, 4)
        else (RuneError, 1)
      | _ => (RuneError, 1)
    else (RuneError, 1)

/-- The runes `for _, r := range s` yields, at most `n` of them. -/
def runesAux : Nat → GoString → List Nat
  | 0, _ => []
  | _ + 1, [] => []
  | n + 1, b :: t =>
    if b < 0x80 then b :: runesAux n t
    else (decoderune (b :: t)).1 :: runesAux n ((b :: t).drop (decoderune (b :: t)).2)

/-- The runes `for _, r := range s` yields. -/
def runes (s : GoString) : List Nat := runesAux s.length s

/-- Membership in the range tables `unicode.Upper` and `unicode.Letter` for
code points above Latin-1 (`isExcludingLatin`). -/
structure UnicodeTables where
  Upper : Nat → Bool
  Letter : Nat → Bool

/-- The Latin-1 code points of category Lu in `unicode.properties`. -/
def latin1Upper (r : Nat) : Bool :=
  (0x41 ≤ r && r ≤ 0x5A) || (0xC0 ≤ r && r ≤ 0xD6) || (0xD8 ≤ r && r ≤ 0xDE)

/-- The Latin-1 code points of category Lu, Ll or Lo in `unicode.properties`. -/
def latin1Letter (r : Nat) : Bool :=
  latin1Upper r || (0x61 ≤ r && r ≤ 0x7A) || r == 0xAA || r == 0xB5 || r == 0xBA ||
    (0xDF ≤ r && r ≤ 0xF6) || (0xF8 ≤ r && r ≤ 0xFF)

/-- `unicode.IsUpper`. -/
def unicodeIsUpper (tbl : UnicodeTables) (r : Nat) : Bool :=
  if r ≤ 0xFF then latin1Upper r else tbl.Upper r

/-- `unicode.IsLetter`. -/
def unicodeIsLetter (tbl : UnicodeTables) (r : Nat) : Bool :=
  if r ≤ 0xFF then latin1Letter r else tbl.Letter r

/-! ## Errors -/

/-- The error values the package handles. -/
inductive GoError
  /-- `io.EOF` -/
  | EOF
  /-- `errors.ErrUnsupported` -/
  | ErrUnsupported
  /-- `errors.New("Request line does not have enough parts")` -/
  | notEnoughParts
  /-- `errors.New("error: trying to read data in a done state")` -/
  | doneState
  /-- `errors.New("error: unknown state")` -/
  | unknownState
  /-- any other error value a reader returns -/
  | other (tag : Nat)
  deriving DecidableEq, Repr

/-! ## Data model -/

/-- `type RequestState int`. -/
abbrev RequestState := Int

def bufferSize : Nat := 8

def Initialized : RequestState := 0

def Done : RequestState := 1

structure RequestLine where
  HttpVersion : GoString
  RequestTarget : GoString
  Method : GoString
  deriving DecidableEq, Repr

/-- The zero value `RequestLine{}`. -/
def RequestLine.zero : RequestLine := ⟨[], [], []⟩

structure Request where
  RequestLine : RequestLine
  State : RequestState
  deriving DecidableEq, Repr

/-! ## The parser -/

/-- The loop of `IsUpper` over the runes of the string. -/
def IsUpperLoop (tbl : UnicodeTables) : List Nat → Bool
  | [] => true
  | r :: rs =>
    if !unicodeIsUpper tbl r && unicodeIsLetter tbl r then false else IsUpperLoop tbl rs

/-- `IsUpper(s)`. -/
def IsUpper (tbl : UnicodeTables) (s : GoString) : Bool := IsUpperLoop tbl (runes s)

/-- `parseRequestLine(text)`: the request line, the byte count and the error. -/
def parseRequestLine (tbl : UnicodeTables) (text : GoString) :
    RequestLine × Nat × Option GoError :=
  if !Contains text CRLF then (RequestLine.zero, 0, none)
  else
    let lines := Split text CRLF
    let requestLine := lines.getD 0 []
    let byteCount := requestLine.length + 2
    let parts := Split requestLine SP
    if parts.length ≠ 3 then (RequestLine.zero, 0, some GoError.notEnoughParts)
    else
      let method := parts.getD 0 []
      let target := parts.getD 1 []
      let versionPart := parts.getD 2 []
      if versionPart ≠ HTTP11 then (RequestLine.zero, 0, some GoError.ErrUnsupported)
      else if !IsUpper tbl method then (RequestLine.zero, 0, some GoError.ErrUnsupported)
      else
        let version := (Split versionPart SLASH).getD 1 []
        (⟨version, target, method⟩, byteCount, none)

/-- `(r *Request) parse(data)`: the request after the call, the count and the
error. -/
def Request.parse (tbl : UnicodeTables) (r : Request) (data : GoString) :
    Request × Nat × Option GoError :=
  if r.State = Initialized then
    if (parseRequestLine tbl data).2.1 = 0 then (r, 0, none)
    else if (parseRequestLine tbl data).2.2 ≠ none then (r, 0, (parseRequestLine tbl data).2.2)
    else (⟨(parseRequestLine tbl data).1, Done⟩, (parseRequestLine tbl data).2.1, none)
  else if r.State = Done then (r, 0, some GoError.doneState)
  else (r, 0, some GoError.unknownState)

/-! ## The read loop -/

/-- What one call `reader.Read(p)` gives: the `byteCount` bytes it delivers
and the error. -/
structure ReadResult where
  data : GoString
  err : Option GoError
  deriving DecidableEq, Repr

/-- The built-in `make([]byte, n)`. -/
def make (n : Nat) : List Byte := List.replicate n 0

/-- The built-in `copy(dst, src)`: `dst` afterwards. -/
def copy (dst src : List Byte) : List Byte :=
  src.take dst.length ++ dst.drop src.length

/-- The variables of the loop of `RequestFromReader`. -/
structure DriverState where
  buf : List Byte
  readToIndex : Nat
  request : Request
  deriving DecidableEq, Repr

/-- How a call of `RequestFromReader` ends: it returns `(*Request, error)`, or a
slice expression is out of range. -/
inductive Result
  | returned (request : Option Request) (err : Option GoError)
  | panicked
  deriving DecidableEq, Repr

/-- The end of one pass through the loop body. -/
inductive Step
  | next (s : DriverState)
  | stop (r : Result)
  deriving DecidableEq, Repr

/-- Lines 53-57: double the buffer when it is full. -/
def grow (s : DriverState) : DriverState :=
  if s.readToIndex = s.buf.length then
    { s with buf := copy (make (s.buf.length * 2)) s.buf }
  else s

/-- Lines 59-81: one read into `buf[readToIndex:]`, then one parse pass. -/
def iteration (tbl : UnicodeTables) (s : DriverState) (rd : ReadResult) : Step :=
  let buf := s.buf.take s.readToIndex ++ copy (s.buf.drop s.readToIndex) rd.data
  let readToIndex := s.readToIndex + rd.data.length
  if rd.err ≠ none ∧ rd.err ≠ some GoError.EOF then Step.stop (Result.returned none rd.err)
  else
    let request : Request :=
      if rd.err = some GoError.EOF then { s.request with State := Done } else s.request
    if buf.length < readToIndex then Step.stop Result.panicked
    else
      let p := Request.parse tbl request (buf.take readToIndex)
      if p.2.2 ≠ none then Step.stop (Result.returned none p.2.2)
      else if p.2.1 = 0 then Step.next ⟨buf, readToIndex, p.1⟩
      else if readToIndex < p.2.1 then Step.stop Result.panicked
      else
        Step.next ⟨copy buf ((buf.take readToIndex).drop p.2.1), readToIndex - p.2.1, p.1⟩

/-- The loop of `RequestFromReader`, the reader being the results of its
successive `Read` calls.  The value is how the function ends and the read
results it never asked for; `none` when the loop asks for a read beyond the
listed ones. -/
def loop (tbl : UnicodeTables) : List ReadResult → DriverState →
    Option (Result × List ReadResult)
  | [], s =>
    if s.request.State = Done then some (Result.returned (some s.request) none, [])
    else if (grow s).buf.length < (grow s).readToIndex then some (Result.panicked, [])
    else none
  | rd :: rest, s =>
    if s.request.State = Done then some (Result.returned (some s.request) none, rd :: rest)
    else if (grow s).buf.length < (grow s).readToIndex then
      some (Result.panicked, rd :: rest)
    else
      match iteration tbl (grow s) rd with
      | Step.stop r => some (r, rest)
      | Step.next s1 => loop tbl rest s1

/-- `RequestFromReader(reader)`. -/
def RequestFromReader (tbl : UnicodeTables) (reader : List ReadResult) :
    Option (Result × List ReadResult) :=
  loop tbl reader ⟨make bufferSize, 0, ⟨RequestLine.zero, Initialized⟩⟩

/-! ## Definitions used in the statements -/

/-- The tables used for evaluation on Latin-1 input, where they are never
consulted. -/
def noTables : UnicodeTables := ⟨fun _ => false, fun _ => false⟩

/-- A fresh request, as `RequestFromReader` creates it. -/
def newRequest : Request := ⟨RequestLine.zero, Initialized⟩

/-- Whether each chunk is no longer than the region `buf[readToIndex:]` its
read is given, while nothing is consumed: the buffer has `cap` bytes, `fill`
of them pending, and doubles when it is full. -/
def fitsFrom : Nat → Nat → List GoString → Bool
  | _, _, [] => true
  | cap, fill, c :: cs =>
    decide (c.length ≤ (if fill = cap then cap * 2 else cap) - fill) &&
      fitsFrom (if fill = cap then cap * 2 else cap) (fill + c.length) cs

/-- The chunks are such that successive reads of `RequestFromReader` can
deliver them. -/
def Fits (chunks : List GoString) : Bool := fitsFrom bufferSize 0 chunks

/-- The reads that deliver the chunks without error. -/
def deliver (chunks : List GoString) : List ReadResult :=
  chunks.map (fun c => ⟨c, none⟩)

/-- The bytes delivered one per read. -/
def oneByte (bytes : GoString) : List GoString := bytes.map (fun b => [b])

/-- The bytes the reads deliver, in order. -/
def bytesOf (reads : List ReadResult) : GoString := (reads.map (fun rd => rd.data)).flatten

/-- The values of the loop variables at the head of the loop of
`RequestFromReader`, when every read returns no more bytes than the region it
is given holds. -/
inductive Reachable (tbl : UnicodeTables) : DriverState → Prop
  | init : Reachable tbl ⟨make bufferSize, 0, newRequest⟩
  | step (s s1 : DriverState) (rd : ReadResult) :
      Reachable tbl s → s.request.State ≠ Done →
      rd.data.length ≤ (grow s).buf.length - (grow s).readToIndex →
      iteration tbl (grow s) rd = Step.next s1 → Reachable tbl s1

end Requests

/-! # `chirpy/internal/auth`: `GetBearerToken` -/

namespace Auth

open Requests

/-- The error `jwt.ErrTokenMalformed`. -/
inductive JwtError
  | ErrTokenMalformed
  deriving DecidableEq, Repr

/-- `http.Header`, a `map[string][]string` with canonical keys; a key that is
absent has no values. -/
def Header := GoString → List GoString

/-- `http.Header{}`. -/
def Header.empty : Header := fun _ => []

/-- `headers.Set(key, value)` for a canonical key. -/
def Header.Set (h : Header) (key value : GoString) : Header :=
  fun k => if k = key then [value] else h k

/-- `headers.Get(key)` for a canonical key: the first value, or `""`. -/
def Header.Get (h : Header) (key : GoString) : GoString := (h key).getD 0 []

/-- The key `"Authorization"`. -/
def Authorization : GoString := ascii "Authorization"

/-- `GetBearerToken(headers)`. -/
def GetBearerToken (headers : Header) : GoString × Option JwtError :=
  if (headers.Get Authorization).length < 7 then ([], some JwtError.ErrTokenMalformed)
  else if ((headers.Get Authorization).drop 7).length = 0 then
    ([], some JwtError.ErrTokenMalformed)
  else ((headers.Get Authorization).drop 7, none)

end Auth

/-! # `httpfromtcp/cmd/tcplistener`: `getLinesChannel` -/

namespace TcpListener

open Requests

/-- The separator `"\n"`. -/
def LF : GoString := [10]

/-- How the goroutine of `getLinesChannel` ends: it closes the channel after
sending the lines, or `bytes[:n]` is out of range after it sent them. -/
inductive Outcome
  | closed (lines : List GoString)
  | panicked (lines : List GoString)
  deriving DecidableEq, Repr

/-- Lines 56-68: what one chunk makes the loop send on the channel, and
`currentLine` afterwards. -/
def chunk (currentLine byteString : GoString) : List GoString × GoString :=
  if !Contains byteString LF then ([], currentLine ++ byteString)
  else
    ([currentLine ++ (Split byteString LF).getD 0 []], (Split byteString LF).getD 1 [])

/-- The loop of the goroutine, the reader being the results of its successive
`Read` calls into a buffer of 8 bytes; `sent` holds the lines sent so far.
`none` when the loop asks for a read beyond the listed ones. -/
def getLinesLoop : List ReadResult → GoString → List GoString → Option Outcome
  | [], _, _ => none
  | rd :: rest, currentLine, sent =>
    if 8 < rd.data.length then some (Outcome.panicked sent)
    else if rd.err = some GoError.EOF then
      some (Outcome.closed (sent ++ (chunk currentLine rd.data).1 ++
        (if (chunk currentLine rd.data).2 ≠ [] then [(chunk currentLine rd.data).2] else [])))
    else getLinesLoop rest (chunk currentLine rd.data).2 (sent ++ (chunk currentLine rd.data).1)

/-- `getLinesChannel(f)`: the strings sent on the returned channel. -/
def getLinesChannel (f : List ReadResult) : Option Outcome := getLinesLoop f [] []

end TcpListener

namespace Requests

/-! ## Facts about `Index` and `Split` -/

theorem Index_none_iff (s sep : GoString) :
    Index s sep = none ↔ ∀ k, ¬ sep <+: s.drop k := by
  induction s with
  | nil =>
    simp only [Index, List.drop_nil]
    by_cases h : sep.isPrefixOf [] = true
    · simp only [h, if_true]
      have := List.isPrefixOf_iff_prefix.mp h
      simp [this]
    · simp only [h]
      have h2 : ¬ sep <+: [] := fun hp => h (List.isPrefixOf_iff_prefix.mpr hp)
      simp [h2]
  | cons c s ih =>
    simp only [Index]
    by_cases h : sep.isPrefixOf (c :: s) = true
    · simp only [h, if_true]
      have := List.isPrefixOf_iff_prefix.mp h
      simp only [reduceCtorEq, false_iff, not_forall, not_not]
      exact ⟨0, by simpa using this⟩
    · have h2 : ¬ sep <+: c :: s := fun hp => h (List.isPrefixOf_iff_prefix.mpr hp)
      simp only [h, Bool.false_eq_true, if_false, Option.map_eq_none', ih]
      constructor
      · intro hk k
        cases k with
        | zero => simpa using h2
        | succ k => simpa using hk k
      · intro hk k
        simpa using hk (k + 1)

theorem Index_some_iff (s sep : GoString) (m : Nat) :
    Index s sep = some m ↔
      sep <+: s.drop m ∧ m ≤ s.length ∧ ∀ k, k < m → ¬ sep <+: s.drop k := by
  induction s generalizing m with
  | nil =>
    simp only [Index, List.drop_nil, List.length_nil, Nat.le_zero_eq]
    by_cases h : sep.isPrefixOf [] = true
    · have hp := List.isPrefixOf_iff_prefix.mp h
      simp only [h, if_true, Option.some.injEq]
      constructor
      · rintro rfl
        exact ⟨hp, rfl, by simp⟩
      · rintro ⟨_, h0, _⟩
        exact h0.symm
    · have h2 : ¬ sep <+: [] := fun hp => h (List.isPrefixOf_iff_prefix.mpr hp)
      simp [h, h2]
  | cons c s ih =>
    simp only [Index]
    by_cases h : sep.isPrefixOf (c :: s) = true
    · have hp := List.isPrefixOf_iff_prefix.mp h
      simp only [h, if_true, Option.some.injEq]
      constructor
      · rintro rfl
        exact ⟨by simpa using hp, by simp, by simp⟩
      · rintro ⟨_, _, hmin⟩
        by_contra hne
        exact hmin 0 (by omega) (by simpa using hp)
    · have h2 : ¬ sep <+: c :: s := fun hp => h (List.isPrefixOf_iff_prefix.mpr hp)
      simp only [h, Bool.false_eq_true, if_false, Option.map_eq_some']
      constructor
      · rintro ⟨a, ha, rfl⟩
        obtain ⟨h1, h3, h4⟩ := (ih a).mp ha
        refine ⟨by simpa using h1, by simpa using h3, ?_⟩
        intro k hk
        cases k with
        | zero => simpa using h2
        | succ k => simpa using h4 k (by omega)
      · rintro ⟨h1, h3, h4⟩
        cases m with
        | zero => exact absurd (by simpa using h1) h2
        | succ a =>
          refine ⟨a, (ih a).mpr ⟨by simpa using h1, by simpa using h3, ?_⟩, rfl⟩
          intro k hk
          simpa using h4 (k + 1) (by omega)

theorem Contains_eq_false_iff (s sep : GoString) :
    Contains s sep = false ↔ Index s sep = none := by
  simp [Contains]

theorem Index_cons_skip (c : Byte) (s sep : GoString) (h : ¬ sep <+: c :: s) :
    Index (c :: s) sep = (Index s sep).map (· + 1) := by
  have h2 : ¬ sep.isPrefixOf (c :: s) = true := fun hp => h (List.isPrefixOf_iff_prefix.mp hp)
  rw [Index, if_neg h2]

theorem Index_cons_hit (c : Byte) (s sep : GoString) (h : sep <+: c :: s) :
    Index (c :: s) sep = some 0 := by
  rw [Index, if_pos (List.isPrefixOf_iff_prefix.mpr h)]

theorem Index_of_proper_prefix (s sep p : GoString) (m : Nat)
    (h : Index s sep = some m) (hp : p <+: s) (hlen : p.length < m + sep.length) :
    Index p sep = none := by
  obtain ⟨h1, _, h3⟩ := (Index_some_iff s sep m).mp h
  rw [Index_none_iff]
  intro k hk
  obtain ⟨q, rfl⟩ := hp
  have hl := hk.length_le
  rw [List.length_drop] at hl
  by_cases hkp : k ≤ p.length
  · have hks : sep <+: (p ++ q).drop k := by
      rw [List.drop_append_of_le_length hkp]
      exact hk.trans (List.prefix_append _ _)
    have : ¬ k < m := fun hlt => h3 k hlt hks
    omega
  · have hnil : p.drop k = [] := List.drop_eq_nil_of_le (by omega)
    rw [hnil] at hk
    have hsep : sep = [] := List.prefix_nil.mp hk
    subst hsep
    have : ¬ 0 < m := fun hlt => h3 0 hlt (List.nil_prefix)
    simp at hlen
    omega

theorem Index_CRLF_cons_none (c : Byte) (s : GoString) (h : Index (c :: s) CRLF = none) :
    ¬ CRLF <+: c :: s ∧ Index s CRLF = none := by
  by_cases hp : CRLF <+: c :: s
  · rw [Index_cons_hit _ _ _ hp] at h
    exact absurd h (by simp)
  · rw [Index_cons_skip _ _ _ hp] at h
    exact ⟨hp, by simpa using h⟩

theorem Index_CRLF_append (L rest : GoString) (h : Index L CRLF = none) :
    Index (L ++ CRLF ++ rest) CRLF = some L.length := by
  induction L with
  | nil => exact Index_cons_hit _ _ _ (by simp [CRLF])
  | cons c L ih =>
    obtain ⟨h1, h2⟩ := Index_CRLF_cons_none c L h
    have hnp : ¬ CRLF <+: c :: (L ++ CRLF ++ rest) := by
      cases L with
      | nil => simp [CRLF]
      | cons d L => simpa [CRLF] using h1
    rw [List.cons_append, List.cons_append, Index_cons_skip _ _ _ hnp, ih h2]
    rfl

theorem Index_CRLF_append_none (a b : GoString) (ha : Index a CRLF = none)
    (hb : Index b CRLF = none) (hhead : b.head? ≠ some 10) :
    Index (a ++ b) CRLF = none := by
  induction a with
  | nil => simpa using hb
  | cons c a ih =>
    obtain ⟨h1, h2⟩ := Index_CRLF_cons_none c a ha
    have hnp : ¬ CRLF <+: c :: (a ++ b) := by
      cases a with
      | nil =>
        cases b with
        | nil => simp [CRLF]
        | cons d b =>
          have : d ≠ 10 := by simpa using hhead
          simp only [CRLF, List.nil_append, List.cons_prefix_cons, List.nil_prefix, and_true,
            not_and]
          intro _ h10
          exact this h10.symm
      | cons d a => simpa [CRLF] using h1
    rw [List.cons_append, Index_cons_skip _ _ _ hnp, ih h2]
    rfl

theorem Index_CRLF_cons_of_ne (c : Byte) (s : GoString) (hc : c ≠ 13)
    (h : Index s CRLF = none) : Index (c :: s) CRLF = none := by
  have hnp : ¬ CRLF <+: c :: s := by
    cases s with
    | nil => simp [CRLF]
    | cons d s =>
      simp only [CRLF, List.cons_prefix_cons, List.nil_prefix, and_true, not_and]
      intro h13
      exact absurd h13.symm hc
  rw [Index_cons_skip _ _ _ hnp, h]
  rfl

/-- A request line `M SP T SP "HTTP/1.1"` has no CRLF when `M` and `T` have none. -/
theorem Index_CRLF_line (M T : GoString) (hM : Index M CRLF = none)
    (hT : Index T CRLF = none) :
    Index (M ++ SP ++ T ++ SP ++ HTTP11) CRLF = none := by
  have e : M ++ SP ++ T ++ SP ++ HTTP11 = M ++ (32 :: (T ++ (32 :: HTTP11))) := by
    simp [SP]
  rw [e]
  apply Index_CRLF_append_none _ _ hM
  · apply Index_CRLF_cons_of_ne _ _ (by decide)
    apply Index_CRLF_append_none _ _ hT
    · decide
    · simp
  · simp

theorem Index_SP_none (a : GoString) (h : 32 ∉ a) : Index a SP = none := by
  induction a with
  | nil => rfl
  | cons c a ih =>
    have hc : ¬ 32 = c := fun e => h (by simp [e])
    have ha : 32 ∉ a := fun e => h (by simp [e])
    rw [Index_cons_skip _ _ _ (by simp [SP, hc]), ih ha]
    rfl

theorem Index_SP_append (a b : GoString) (h : 32 ∉ a) :
    Index (a ++ 32 :: b) SP = some a.length := by
  induction a with
  | nil => exact Index_cons_hit _ _ _ (by simp [SP])
  | cons c a ih =>
    have hc : ¬ 32 = c := fun e => h (by simp [e])
    have ha : 32 ∉ a := fun e => h (by simp [e])
    rw [List.cons_append, Index_cons_skip _ _ _ (by simp [SP, hc]), ih ha]
    rfl

theorem genSplit_SP_cut (n : Nat) (a b : GoString) (h : 32 ∉ a) :
    genSplit SP (n + 1) (a ++ 32 :: b) = a :: genSplit SP n b := by
  rw [genSplit, Index_SP_append a b h]
  simp [SP]

theorem genSplit_SP_last (n : Nat) (a : GoString) (h : 32 ∉ a) :
    genSplit SP n a = [a] := by
  cases n with
  | zero => rfl
  | succ n => rw [genSplit, Index_SP_none a h]

theorem Split_SP_three (M T V : GoString) (hM : 32 ∉ M) (hT : 32 ∉ T) (hV : 32 ∉ V) :
    Split (M ++ SP ++ T ++ SP ++ V) SP = [M, T, V] := by
  have e : M ++ SP ++ T ++ SP ++ V = M ++ 32 :: (T ++ 32 :: V) := by simp [SP]
  have hl : (M ++ 32 :: (T ++ 32 :: V)).length = (M.length + T.length + V.length) + 1 + 1 := by
    simp; omega
  rw [Split, e, hl, genSplit_SP_cut _ _ _ hM, genSplit_SP_cut _ _ _ hT,
    genSplit_SP_last _ _ hV]

theorem Split_CRLF_head (text : GoString) (m : Nat) (h : Index text CRLF = some m) :
    (Split text CRLF).getD 0 [] = text.take m := by
  obtain ⟨h1, h2, _⟩ := (Index_some_iff _ _ _).mp h
  have hl := h1.length_le
  simp only [CRLF, List.length_cons, List.length_nil, List.length_drop] at hl
  obtain ⟨n, hn⟩ : ∃ n, text.length = n + 1 := ⟨text.length - 1, by omega⟩
  rw [Split, hn, genSplit, h]
  rfl

theorem parseRequestLine_wellFormed (tbl : UnicodeTables) (M T rest : GoString)
    (hM : 32 ∉ M) (hT : 32 ∉ T) (hMc : Contains M CRLF = false)
    (hTc : Contains T CRLF = false) (hU : IsUpper tbl M = true) :
    parseRequestLine tbl (M ++ SP ++ T ++ SP ++ HTTP11 ++ CRLF ++ rest) =
      (⟨[49, 46, 49], T, M⟩, (M ++ SP ++ T ++ SP ++ HTTP11).length + 2, none) := by
  rw [Contains_eq_false_iff] at hMc hTc
  have hidx := Index_CRLF_append (M ++ SP ++ T ++ SP ++ HTTP11) rest (Index_CRLF_line M T hMc hTc)
  have hc : Contains (M ++ SP ++ T ++ SP ++ HTTP11 ++ CRLF ++ rest) CRLF = true := by
    rw [Contains, hidx]; rfl
  have hhead := Split_CRLF_head _ _ hidx
  rw [List.append_assoc _ CRLF rest, List.take_left] at hhead
  rw [← List.append_assoc _ CRLF rest] at hhead
  have hparts := Split_SP_three M T HTTP11 hM hT (by decide)
  have hver : (Split HTTP11 SLASH).getD 1 [] = [49, 46, 49] := by decide
  unfold parseRequestLine
  rw [hc]
  simp only [hhead, hparts, hU, hver, Bool.not_true, Bool.false_eq_true, if_false,
    List.length_cons, List.length_nil, List.getD_cons_zero, List.getD_cons_succ, ne_eq,
    not_true_eq_false]

/-! ## The parser: `parseRequestLine` and `Request.parse` -/

theorem IsUpperLoop_of_forall (tbl : UnicodeTables) (rs : List Nat)
    (h : ∀ r ∈ rs, unicodeIsLetter tbl r = true → unicodeIsUpper tbl r = true) :
    IsUpperLoop tbl rs = true := by
  induction rs with
  | nil => rfl
  | cons r rs ih =>
    have hr := h r (by simp)
    have hrs : ∀ x ∈ rs, unicodeIsLetter tbl x = true → unicodeIsUpper tbl x = true :=
      fun x hx => h x (by simp [hx])
    rw [IsUpperLoop]
    cases hL : unicodeIsLetter tbl r with
    | false => simpa using ih hrs
    | true => simpa [hr hL] using ih hrs

/-- What a non-zero count from `parseRequestLine` tells about the text. -/
theorem parseRequestLine_count_ne_zero (tbl : UnicodeTables) (text : GoString)
    (h : (parseRequestLine tbl text).2.1 ≠ 0) :
    ∃ m method target, Index text CRLF = some m ∧ m + 2 ≤ text.length ∧
      Split (text.take m) SP = [method, target, HTTP11] ∧ IsUpper tbl method = true ∧
      parseRequestLine tbl text = (⟨[49, 46, 49], target, method⟩, m + 2, none) := by
  unfold parseRequestLine at h ⊢
  cases hidx : Index text CRLF with
  | none => simp [Contains, hidx] at h
  | some m =>
    have hc : Contains text CRLF = true := by rw [Contains, hidx]; rfl
    have hhead := Split_CRLF_head text m hidx
    obtain ⟨h1, h2, _⟩ := (Index_some_iff _ _ _).mp hidx
    have hl := h1.length_le
    simp only [CRLF, List.length_cons, List.length_nil, List.length_drop] at hl
    have hm : m + 2 ≤ text.length := by omega
    rw [hc] at h ⊢
    simp only [hhead, Bool.not_true, Bool.false_eq_true, if_false] at h ⊢
    by_cases hp : (Split (text.take m) SP).length = 3
    · obtain ⟨a, b, c, habc⟩ := List.length_eq_three.mp hp
      rw [habc] at h ⊢
      simp only [List.length_cons, List.length_nil, List.getD_cons_zero, List.getD_cons_succ,
        ne_eq, not_true_eq_false, if_false] at h ⊢
      by_cases hv : c = HTTP11
      · subst hv
        simp only [not_true_eq_false, if_false] at h ⊢
        cases hu : IsUpper tbl a with
        | false => simp [hu] at h
        | true =>
          have hver : (Split HTTP11 SLASH).getD 1 [] = [49, 46, 49] := by decide
          refine ⟨m, a, b, rfl, hm, habc, hu, ?_⟩
          rw [hver, List.length_take, Nat.min_eq_left h2]
          rfl
      · simp [hv] at h
    · simp [hp] at h

/-- C2. Success postcondition of `parse`: on `M SP T SP "HTTP/1.1" CRLF rest`,
with `M` and `T` free of spaces and of CRLF and every letter of `M` uppercase,
`parse` in state `Initialized` returns no error, stores
`{Method M, RequestTarget T, HttpVersion "1.1"}`, moves to `Done` and counts the
line and its CRLF. -/
theorem parse_success (tbl : UnicodeTables) (r : Request) (M T rest : GoString)
    (hS : r.State = Initialized) (hM : 32 ∉ M) (hT : 32 ∉ T)
    (hMc : Contains M CRLF = false) (hTc : Contains T CRLF = false)
    (hU : ∀ c ∈ runes M, unicodeIsLetter tbl c = true → unicodeIsUpper tbl c = true) :
    Request.parse tbl r (M ++ SP ++ T ++ SP ++ HTTP11 ++ CRLF ++ rest) =
      (⟨⟨ascii "1.1", T, M⟩, Done⟩, (M ++ SP ++ T ++ SP ++ HTTP11 ++ CRLF).length, none) := by
  have hp := parseRequestLine_wellFormed tbl M T rest hM hT hMc hTc
    (IsUpperLoop_of_forall tbl _ hU)
  have e : ascii "1.1" = [49, 46, 49] := by decide
  unfold Request.parse
  rw [hp, e, if_pos hS]
  simp only [CRLF, List.length_append, List.length_cons, List.length_nil, ne_eq,
    not_true_eq_false, if_false]
  rw [if_neg (by omega)]

/-- Instance of C2 at `GET /index.html HTTP/1.1` followed by CRLF. -/
theorem parse_success_witness :
    Request.parse noTables newRequest (ascii "GET /index.html HTTP/1.1\r\n") =
      (⟨⟨ascii "1.1", ascii "/index.html", ascii "GET"⟩, Done⟩, 26, none) :=
  parse_success noTables newRequest (ascii "GET") (ascii "/index.html") [] rfl
    (by decide) (by decide) (by decide) (by decide) (by decide)

/-- C3. Bytes consumed: when `parse` in state `Initialized` succeeds, the count
it returns is the number of bytes before the first CRLF plus 2; it lies between
2 and the length of the buffer, and equals that length when the buffer ends
with that first CRLF. -/
theorem parse_count (tbl : UnicodeTables) (r : Request) (data : GoString)
    (hS : r.State = Initialized) (hD : (Request.parse tbl r data).1.State = Done) :
    ∃ m, Index data CRLF = some m ∧ (Request.parse tbl r data).2.1 = m + 2 ∧
      (Request.parse tbl r data).2.2 = none ∧
      2 ≤ (Request.parse tbl r data).2.1 ∧ (Request.parse tbl r data).2.1 ≤ data.length ∧
      (data = data.take m ++ CRLF → (Request.parse tbl r data).2.1 = data.length) := by
  have hne : r.State ≠ Done := by rw [hS]; decide
  unfold Request.parse at hD ⊢
  rw [if_pos hS] at hD ⊢
  by_cases h0 : (parseRequestLine tbl data).2.1 = 0
  · rw [if_pos h0] at hD
    exact absurd hD hne
  · rw [if_neg h0] at hD ⊢
    obtain ⟨m, method, target, hidx, hm, _, _, hp⟩ := parseRequestLine_count_ne_zero tbl data h0
    rw [hp]
    refine ⟨m, hidx, by simp, by simp, by simp, by simpa using hm, ?_⟩
    intro hd
    have := congrArg List.length hd
    simp only [List.length_append, List.length_take, CRLF, List.length_cons,
      List.length_nil] at this
    simp
    omega

/-- Instance of C3 at a buffer with bytes after the first CRLF. -/
theorem parse_count_witness :
    ∃ m, Index (ascii "GET / HTTP/1.1\r\nHost") CRLF = some m ∧
      (Request.parse noTables newRequest (ascii "GET / HTTP/1.1\r\nHost")).2.1 = m + 2 ∧
      (Request.parse noTables newRequest (ascii "GET / HTTP/1.1\r\nHost")).2.2 = none ∧
      2 ≤ (Request.parse noTables newRequest (ascii "GET / HTTP/1.1\r\nHost")).2.1 ∧
      (Request.parse noTables newRequest (ascii "GET / HTTP/1.1\r\nHost")).2.1 ≤
        (ascii "GET / HTTP/1.1\r\nHost").length ∧
      (ascii "GET / HTTP/1.1\r\nHost" = (ascii "GET / HTTP/1.1\r\nHost").take m ++ CRLF →
        (Request.parse noTables newRequest (ascii "GET / HTTP/1.1\r\nHost")).2.1 =
          (ascii "GET / HTTP/1.1\r\nHost").length) :=
  parse_count noTables newRequest (ascii "GET / HTTP/1.1\r\nHost") rfl (by decide)

theorem parse_of_no_CRLF (tbl : UnicodeTables) (r : Request) (data : GoString)
    (hS : r.State = Initialized) (hC : Contains data CRLF = false) :
    Request.parse tbl r data = (r, 0, none) := by
  have hp : (parseRequestLine tbl data).2.1 = 0 := by
    unfold parseRequestLine
    simp [hC]
  unfold Request.parse
  rw [if_pos hS, if_pos hp]

/-- C4. Need more input: on a buffer without CRLF, `parse` in state
`Initialized` returns count 0 and no error and leaves the request as it was. -/
theorem parse_need_more (tbl : UnicodeTables) (r : Request) (data : GoString)
    (hS : r.State = Initialized) (hC : Contains data CRLF = false) :
    Request.parse tbl r data = (r, 0, none) :=
  parse_of_no_CRLF tbl r data hS hC

/-- Instance of C4 at a buffer that ends in a lone CR. -/
theorem parse_need_more_witness :
    Request.parse noTables newRequest (ascii "GET / HTTP/1.1\r") = (newRequest, 0, none) :=
  parse_need_more noTables newRequest (ascii "GET / HTTP/1.1\r") rfl (by decide)

/-- C5. On a complete but invalid first line `parseRequestLine` produces an
error, yet `parse` in state `Initialized` returns count 0 and a nil error and
leaves the request untouched: the error is not returned. -/
theorem parse_drops_validation_error (tbl : UnicodeTables) :
    (parseRequestLine tbl (ascii "get / HTTP/1.1\r\n")).2.2 = some GoError.ErrUnsupported ∧
    Request.parse tbl newRequest (ascii "get / HTTP/1.1\r\n") = (newRequest, 0, none) ∧
    (parseRequestLine tbl (ascii "GET HTTP/1.1\r\n")).2.2 = some GoError.notEnoughParts ∧
    Request.parse tbl newRequest (ascii "GET HTTP/1.1\r\n") = (newRequest, 0, none) ∧
    (parseRequestLine tbl (ascii "GET / HTTP/2.0\r\n")).2.2 = some GoError.ErrUnsupported ∧
    Request.parse tbl newRequest (ascii "GET / HTTP/2.0\r\n") = (newRequest, 0, none) :=
  ⟨rfl, rfl, rfl, rfl, rfl, rfl⟩

/-- C6. `Done` is terminal: in state `Done`, `parse` returns count 0 and the
done-state error on every buffer and leaves `State` and `RequestLine` as they
were. -/
theorem parse_done (tbl : UnicodeTables) (r : Request) (data : GoString)
    (hS : r.State = Done) :
    Request.parse tbl r data = (r, 0, some GoError.doneState) := by
  have hne : r.State ≠ Initialized := by rw [hS]; decide
  unfold Request.parse
  rw [if_neg hne, if_pos hS]

/-- Instance of C6 at a request already parsed and a further valid line. -/
theorem parse_done_witness :
    Request.parse noTables ⟨⟨ascii "1.1", ascii "/", ascii "GET"⟩, Done⟩
        (ascii "POST /x HTTP/1.1\r\n") =
      (⟨⟨ascii "1.1", ascii "/", ascii "GET"⟩, Done⟩, 0, some GoError.doneState) :=
  parse_done noTables ⟨⟨ascii "1.1", ascii "/", ascii "GET"⟩, Done⟩
    (ascii "POST /x HTTP/1.1\r\n") rfl

/-! ## The read loop -/

theorem grow_readToIndex (s : DriverState) : (grow s).readToIndex = s.readToIndex := by
  unfold grow; split <;> rfl

theorem grow_request (s : DriverState) : (grow s).request = s.request := by
  unfold grow; split <;> rfl

theorem copy_make_double (buf : List Byte) :
    copy (make (buf.length * 2)) buf = buf ++ List.replicate buf.length 0 := by
  have h : buf.length * 2 - buf.length = buf.length := by omega
  simp [copy, make, h]
  omega

theorem grow_buf_length (s : DriverState) :
    (grow s).buf.length =
      if s.readToIndex = s.buf.length then s.buf.length * 2 else s.buf.length := by
  unfold grow
  split
  · simp [copy_make_double]; omega
  · rfl

theorem grow_take (s : DriverState) :
    (grow s).buf.take s.readToIndex = s.buf.take s.readToIndex := by
  unfold grow
  split
  · next h => simp [copy_make_double, h]
  · rfl

theorem loop_done (tbl : UnicodeTables) (script : List ReadResult) (s : DriverState)
    (h : s.request.State = Done) :
    loop tbl script s = some (Result.returned (some s.request) none, script) := by
  cases script with
  | nil => rw [loop, if_pos h]
  | cons rd rest => rw [loop, if_pos h]

theorem loop_cons (tbl : UnicodeTables) (rd : ReadResult) (rest : List ReadResult)
    (s : DriverState) (h : s.request.State ≠ Done)
    (hb : ¬ (grow s).buf.length < (grow s).readToIndex) :
    loop tbl (rd :: rest) s =
      match iteration tbl (grow s) rd with
      | Step.stop r => some (r, rest)
      | Step.next s1 => loop tbl rest s1 := by
  rw [loop, if_neg h, if_neg hb]

/-- The buffer after a read that delivers `c` into a region that holds it. -/
theorem read_into (buf c : List Byte) (i : Nat) (_hi : i ≤ buf.length)
    (hc : c.length ≤ buf.length - i) :
    buf.take i ++ copy (buf.drop i) c = buf.take i ++ c ++ buf.drop (i + c.length) := by
  have h1 : c.take (buf.length - i) = c := List.take_of_length_le hc
  simp [copy, h1, List.append_assoc, Nat.add_comm]

theorem read_into_length (buf c : List Byte) (i : Nat) (hi : i ≤ buf.length)
    (hc : c.length ≤ buf.length - i) :
    (buf.take i ++ copy (buf.drop i) c).length = buf.length := by
  rw [read_into buf c i hi hc]
  simp
  omega

theorem read_into_take (buf c : List Byte) (i : Nat) (hi : i ≤ buf.length)
    (hc : c.length ≤ buf.length - i) :
    (buf.take i ++ copy (buf.drop i) c).take (i + c.length) = buf.take i ++ c := by
  rw [read_into buf c i hi hc]
  have hl : (buf.take i ++ c).length = i + c.length := by simp [hi]
  rw [← hl, List.take_left]

/-- One pass of the loop body on a read that delivers `c` without error into a
region that holds it, in terms of the pending bytes. -/
theorem iteration_deliver (tbl : UnicodeTables) (g : DriverState) (c : GoString)
    (hi : g.readToIndex ≤ g.buf.length) (hc : c.length ≤ g.buf.length - g.readToIndex) :
    iteration tbl g ⟨c, none⟩ =
      if (Request.parse tbl g.request (g.buf.take g.readToIndex ++ c)).2.2 ≠ none then
        Step.stop (Result.returned none
          (Request.parse tbl g.request (g.buf.take g.readToIndex ++ c)).2.2)
      else if (Request.parse tbl g.request (g.buf.take g.readToIndex ++ c)).2.1 = 0 then
        Step.next ⟨g.buf.take g.readToIndex ++ copy (g.buf.drop g.readToIndex) c,
          g.readToIndex + c.length,
          (Request.parse tbl g.request (g.buf.take g.readToIndex ++ c)).1⟩
      else if g.readToIndex + c.length <
          (Request.parse tbl g.request (g.buf.take g.readToIndex ++ c)).2.1 then
        Step.stop Result.panicked
      else
        Step.next ⟨copy (g.buf.take g.readToIndex ++ copy (g.buf.drop g.readToIndex) c)
            ((g.buf.take g.readToIndex ++ c).drop
              (Request.parse tbl g.request (g.buf.take g.readToIndex ++ c)).2.1),
          g.readToIndex + c.length -
            (Request.parse tbl g.request (g.buf.take g.readToIndex ++ c)).2.1,
          (Request.parse tbl g.request (g.buf.take g.readToIndex ++ c)).1⟩ := by
  have hlen := read_into_length g.buf c g.readToIndex hi hc
  have htake := read_into_take g.buf c g.readToIndex hi hc
  unfold iteration
  simp only [ne_eq, not_true_eq_false, false_and, if_false, reduceCtorEq, hlen, htake]
  rw [if_neg (by omega)]

theorem loop_accumulate (tbl : UnicodeTables) (full : GoString) (rl : RequestLine)
    (hfull : parseRequestLine tbl full = (rl, full.length, none))
    (hpre : ∀ p, p <+: full → p.length < full.length → Contains p CRLF = false)
    (chunks : List GoString) :
    ∀ (s : DriverState) (rest : List ReadResult), s.request.State = Initialized →
      s.readToIndex ≤ s.buf.length → s.buf.take s.readToIndex ++ chunks.flatten = full →
      s.readToIndex < full.length → fitsFrom s.buf.length s.readToIndex chunks = true →
      ∃ unread, loop tbl (deliver chunks ++ rest) s =
        some (Result.returned (some ⟨rl, Done⟩) none, unread) := by
  induction chunks with
  | nil =>
    intro s rest _ hle hcat hlt _
    have := congrArg List.length hcat
    simp [Nat.min_eq_left hle] at this
    omega
  | cons c cs ih =>
    intro s rest hS hle hcat hlt hfit
    have hnd : s.request.State ≠ Done := by rw [hS]; decide
    simp only [fitsFrom, Bool.and_eq_true, decide_eq_true_eq] at hfit
    obtain ⟨hc, hfit⟩ := hfit
    rw [← grow_buf_length] at hc hfit
    have hgle : s.readToIndex ≤ (grow s).buf.length := by
      rw [grow_buf_length]; split <;> omega
    have hb : ¬ (grow s).buf.length < (grow s).readToIndex := by
      rw [grow_readToIndex]; omega
    have hlen := read_into_length (grow s).buf c s.readToIndex hgle hc
    have htake := read_into_take (grow s).buf c s.readToIndex hgle hc
    rw [grow_take] at hlen htake
    have hcat2 : (s.buf.take s.readToIndex ++ c) ++ cs.flatten = full := by
      rw [← hcat]; simp
    have hpl : (s.buf.take s.readToIndex ++ c).length = s.readToIndex + c.length := by
      simp [Nat.min_eq_left hle]
    have hit := iteration_deliver tbl (grow s) c (by rw [grow_readToIndex]; exact hgle)
      (by rw [grow_readToIndex]; exact hc)
    simp only [grow_readToIndex, grow_request, grow_take] at hit
    show ∃ unread, loop tbl (⟨c, none⟩ :: (deliver cs ++ rest)) s = _
    rw [loop_cons tbl _ _ s hnd hb, hit]
    by_cases hlt2 : (s.buf.take s.readToIndex ++ c).length < full.length
    · have hC := hpre _ ⟨_, hcat2⟩ hlt2
      rw [parse_of_no_CRLF tbl s.request _ hS hC]
      simp only [ne_eq, not_true_eq_false, if_false, if_true]
      apply ih
      · exact hS
      · show s.readToIndex + c.length ≤ _
        rw [hlen]; omega
      · show List.take (s.readToIndex + c.length) _ ++ cs.flatten = full
        rw [htake]
        exact hcat2
      · show s.readToIndex + c.length < full.length
        omega
      · show fitsFrom (List.length _) (s.readToIndex + c.length) cs = true
        rw [hlen]; exact hfit
    · have hfl := congrArg List.length hcat2
      rw [List.length_append] at hfl
      have hnil : cs.flatten = [] := List.length_eq_zero.mp (by omega)
      rw [hnil, List.append_nil] at hcat2
      have hparse : Request.parse tbl s.request full = (⟨rl, Done⟩, full.length, none) := by
        unfold Request.parse
        rw [if_pos hS, hfull]
        simp only [ne_eq, not_true_eq_false, if_false]
        rw [if_neg (by omega)]
      rw [hcat2, hparse]
      simp only [ne_eq, not_true_eq_false, if_false]
      rw [if_neg (by omega), if_neg (by rw [← hcat2, hpl]; omega)]
      exact ⟨_, loop_done tbl _ _ rfl⟩

theorem oneByte_flatten (bytes : GoString) : (oneByte bytes).flatten = bytes := by
  induction bytes with
  | nil => rfl
  | cons b bs ih => simpa [oneByte] using ih

theorem fitsFrom_oneByte (bytes : GoString) :
    ∀ cap fill, 0 < cap → fill ≤ cap → fitsFrom cap fill (oneByte bytes) = true := by
  induction bytes with
  | nil => intro _ _ _ _; rfl
  | cons b bs ih =>
    intro cap fill hcap hfill
    show fitsFrom cap fill ([b] :: oneByte bs) = true
    simp only [fitsFrom, Bool.and_eq_true, decide_eq_true_eq, List.length_cons, List.length_nil]
    constructor
    · split <;> omega
    · apply ih
      · split <;> omega
      · split <;> omega

/-- `RequestFromReader` on chunks that make up one first line on which
`parseRequestLine` succeeds, whatever is read afterwards. -/
theorem RequestFromReader_of_line (tbl : UnicodeTables) (full : GoString) (rl : RequestLine)
    (hfull : parseRequestLine tbl full = (rl, full.length, none))
    (hpre : ∀ p, p <+: full → p.length < full.length → Contains p CRLF = false)
    (hpos : 0 < full.length)
    (chunks : List GoString) (rest : List ReadResult) (hcat : chunks.flatten = full)
    (hfit : Fits chunks = true) :
    (RequestFromReader tbl (deliver chunks ++ rest)).map Prod.fst =
      some (Result.returned (some ⟨rl, Done⟩) none) := by
  obtain ⟨unread, h⟩ := loop_accumulate tbl full rl hfull hpre chunks
    ⟨make bufferSize, 0, ⟨RequestLine.zero, Initialized⟩⟩ rest rfl (Nat.zero_le _)
    (by simpa using hcat) hpos (by simpa [make] using hfit)
  rw [RequestFromReader, h]
  rfl

/-- The line `M SP T SP "HTTP/1.1" CRLF` as `parseRequestLine` sees it. -/
theorem wellFormed_line (tbl : UnicodeTables) (M T : GoString)
    (hM : 32 ∉ M) (hT : 32 ∉ T) (hMc : Contains M CRLF = false)
    (hTc : Contains T CRLF = false)
    (hU : ∀ c ∈ runes M, unicodeIsLetter tbl c = true → unicodeIsUpper tbl c = true) :
    parseRequestLine tbl (M ++ SP ++ T ++ SP ++ HTTP11 ++ CRLF) =
        (⟨ascii "1.1", T, M⟩, (M ++ SP ++ T ++ SP ++ HTTP11 ++ CRLF).length, none) ∧
      (∀ p, p <+: M ++ SP ++ T ++ SP ++ HTTP11 ++ CRLF →
        p.length < (M ++ SP ++ T ++ SP ++ HTTP11 ++ CRLF).length → Contains p CRLF = false) ∧
      0 < (M ++ SP ++ T ++ SP ++ HTTP11 ++ CRLF).length := by
  have hp := parseRequestLine_wellFormed tbl M T [] hM hT hMc hTc
    (IsUpperLoop_of_forall tbl _ hU)
  rw [List.append_nil] at hp
  rw [Contains_eq_false_iff] at hMc hTc
  have hidx := Index_CRLF_append (M ++ SP ++ T ++ SP ++ HTTP11) [] (Index_CRLF_line M T hMc hTc)
  rw [List.append_nil] at hidx
  have hl : (M ++ SP ++ T ++ SP ++ HTTP11 ++ CRLF).length =
      (M ++ SP ++ T ++ SP ++ HTTP11).length + 2 := by
    simp [CRLF]
    omega
  refine ⟨?_, ?_, by omega⟩
  · rw [hp, hl]
    rfl
  · intro p hpp hlt
    rw [Contains_eq_false_iff]
    exact Index_of_proper_prefix _ _ p _ hidx hpp (by simpa [CRLF, hl] using hlt)

/-- C1. Chunk-size invariance of `RequestFromReader`: for a well-formed request
line `M SP T SP "HTTP/1.1"`, every way of delivering the line and its CRLF in
chunks that successive error-free reads can hold gives a nil error and the
request line `{Method M, RequestTarget T, HttpVersion "1.1"}`, whatever is read
afterwards; so do one-byte chunks. -/
theorem RequestFromReader_chunk_invariance (tbl : UnicodeTables) (M T : GoString)
    (hM : 32 ∉ M) (hT : 32 ∉ T) (hMc : Contains M CRLF = false)
    (hTc : Contains T CRLF = false)
    (hU : ∀ c ∈ runes M, unicodeIsLetter tbl c = true → unicodeIsUpper tbl c = true) :
    (∀ (chunks : List GoString) (rest : List ReadResult),
      chunks.flatten = M ++ SP ++ T ++ SP ++ HTTP11 ++ CRLF → Fits chunks = true →
      (RequestFromReader tbl (deliver chunks ++ rest)).map Prod.fst =
        some (Result.returned (some ⟨⟨ascii "1.1", T, M⟩, Done⟩) none)) ∧
    (∀ rest : List ReadResult,
      (RequestFromReader tbl
          (deliver (oneByte (M ++ SP ++ T ++ SP ++ HTTP11 ++ CRLF)) ++ rest)).map Prod.fst =
        some (Result.returned (some ⟨⟨ascii "1.1", T, M⟩, Done⟩) none)) := by
  obtain ⟨hfull, hpre, hpos⟩ := wellFormed_line tbl M T hM hT hMc hTc hU
  constructor
  · intro chunks rest hcat hfit
    exact RequestFromReader_of_line tbl _ _ hfull hpre hpos chunks rest hcat hfit
  · intro rest
    exact RequestFromReader_of_line tbl _ _ hfull hpre hpos _ rest (oneByte_flatten _)
      (fitsFrom_oneByte _ _ _ (by decide) (by decide))

/-- Instance of C1: the line in chunks of 5, 3, 8, 9 and 1 bytes, with a later read that is never asked for. -/
theorem RequestFromReader_chunk_invariance_witness :
    (RequestFromReader noTables
        (deliver [ascii "GET /", ascii "ind", ascii "ex.html ", ascii "HTTP/1.1\r", ascii "\n"] ++
          [⟨ascii "Host: x", none⟩])).map Prod.fst =
      some (Result.returned (some ⟨⟨ascii "1.1", ascii "/index.html", ascii "GET"⟩, Done⟩) none) :=
  (RequestFromReader_chunk_invariance noTables (ascii "GET") (ascii "/index.html")
    (by decide) (by decide) (by decide) (by decide) (by decide)).1
    [ascii "GET /", ascii "ind", ascii "ex.html ", ascii "HTTP/1.1\r", ascii "\n"]
    [⟨ascii "Host: x", none⟩] (by decide) (by decide)

theorem loop_append_of_none (tbl : UnicodeTables) (pre : List ReadResult) :
    ∀ s : DriverState, loop tbl pre s = none →
      ∃ s1, (∀ more, loop tbl (pre ++ more) s = loop tbl more s1) ∧ loop tbl [] s1 = none := by
  induction pre with
  | nil =>
    intro s h
    exact ⟨s, fun _ => rfl, h⟩
  | cons rd pre ih =>
    intro s h
    by_cases hd : s.request.State = Done
    · rw [loop_done tbl _ s hd] at h
      exact absurd h (by simp)
    · by_cases hb : (grow s).buf.length < (grow s).readToIndex
      · rw [loop, if_neg hd, if_pos hb] at h
        exact absurd h (by simp)
      · rw [loop_cons tbl rd pre s hd hb] at h
        cases hit : iteration tbl (grow s) rd with
        | stop r =>
          rw [hit] at h
          exact absurd h (by simp)
        | next s2 =>
          rw [hit] at h
          obtain ⟨s1, h1, h2⟩ := ih s2 h
          refine ⟨s1, ?_, h2⟩
          intro more
          rw [List.cons_append, loop_cons tbl rd _ s hd hb, hit]
          exact h1 more

/-- C9. Hard read errors are fatal: when the reads `pre` leave the loop asking
for another read and that read returns an error other than `io.EOF`,
`RequestFromReader` returns a nil request and exactly that error, whatever
bytes the read delivered, and asks for no further read. -/
theorem RequestFromReader_read_error (tbl : UnicodeTables) (pre rest : List ReadResult)
    (d : GoString) (e : GoError) (he : e ≠ GoError.EOF)
    (hpre : RequestFromReader tbl pre = none) :
    RequestFromReader tbl (pre ++ ⟨d, some e⟩ :: rest) =
      some (Result.returned none (some e), rest) := by
  obtain ⟨s1, h1, h2⟩ := loop_append_of_none tbl pre _ hpre
  rw [RequestFromReader, h1]
  have hd : s1.request.State ≠ Done := by
    intro hd
    rw [loop_done tbl _ s1 hd] at h2
    exact absurd h2 (by simp)
  have hb : ¬ (grow s1).buf.length < (grow s1).readToIndex := by
    intro hb
    rw [loop, if_neg hd, if_pos hb] at h2
    exact absurd h2 (by simp)
  have hit : iteration tbl (grow s1) ⟨d, some e⟩ =
      Step.stop (Result.returned none (some e)) := by
    unfold iteration
    have : (some e : Option GoError) ≠ some GoError.EOF := by simpa using he
    simp [this]
  rw [loop_cons tbl _ _ s1 hd hb, hit]

/-- Instance of C9: the failing read delivers the rest of a valid line, which is not parsed, and the read after it is left unread. -/
theorem RequestFromReader_read_error_witness :
    RequestFromReader noTables
        ([⟨ascii "GET / HT", none⟩] ++
          ⟨ascii "TP/1.1\r\n", some (GoError.other 5)⟩ :: [⟨[], some GoError.EOF⟩]) =
      some (Result.returned none (some (GoError.other 5)), [⟨[], some GoError.EOF⟩]) :=
  RequestFromReader_read_error noTables [⟨ascii "GET / HT", none⟩] [⟨[], some GoError.EOF⟩]
    (ascii "TP/1.1\r\n") (GoError.other 5) (by decide) (by decide)

theorem Index_SP_some (s : GoString) :
    ∀ m, Index s SP = some m → s = s.take m ++ 32 :: s.drop (m + 1) ∧ 32 ∉ s.take m := by
  induction s with
  | nil =>
    intro m h
    exact absurd h (by simp [Index, SP])
  | cons c s ih =>
    intro m h
    by_cases hc : 32 = c
    · rw [Index_cons_hit _ _ _ (by simp [SP, hc])] at h
      have hm : m = 0 := by simpa using h.symm
      subst hm
      simp [hc]
    · rw [Index_cons_skip _ _ _ (by simp [SP, hc])] at h
      obtain ⟨a, ha, rfl⟩ := Option.map_eq_some'.mp h
      obtain ⟨h1, h2⟩ := ih a ha
      constructor
      · simpa using h1
      · simp only [List.take_succ_cons, List.mem_cons, not_or]
        exact ⟨hc, h2⟩

theorem genSplit_singleton (sep : GoString) (n : Nat) (s c : GoString)
    (h : genSplit sep n s = [c]) : c = s := by
  cases n with
  | zero => simpa [genSplit] using h.symm
  | succ n =>
    rw [genSplit] at h
    cases hi : Index s sep with
    | none => rw [hi] at h; simpa using h.symm
    | some m =>
      rw [hi] at h
      cases n <;> simp [genSplit] at h
      split at h <;> simp at h

/-- Three tokens from a split on spaces: the string is the tokens joined by
single spaces, and the first two tokens have no space. -/
theorem Split_SP_eq_three (s a b c : GoString) (h : Split s SP = [a, b, c]) :
    s = a ++ SP ++ b ++ SP ++ c ∧ 32 ∉ a ∧ 32 ∉ b := by
  rw [Split] at h
  cases hn : s.length with
  | zero => rw [hn] at h; simp [genSplit] at h
  | succ n =>
    rw [hn, genSplit] at h
    cases hi : Index s SP with
    | none => rw [hi] at h; simp at h
    | some m =>
      rw [hi] at h
      obtain ⟨hs, hna⟩ := Index_SP_some s m hi
      simp only [List.cons.injEq] at h
      obtain ⟨ha, h⟩ := h
      have hlen : SP.length = 1 := rfl
      rw [hlen] at h
      cases n with
      | zero => simp [genSplit] at h
      | succ n =>
        rw [genSplit] at h
        cases hi2 : Index (s.drop (m + 1)) SP with
        | none => rw [hi2] at h; simp at h
        | some m2 =>
          rw [hi2, hlen] at h
          obtain ⟨hs2, hnb⟩ := Index_SP_some _ m2 hi2
          simp only [List.cons.injEq] at h
          obtain ⟨hb, h⟩ := h
          have hc := genSplit_singleton _ _ _ _ h
          rw [ha] at hna
          rw [hb] at hnb
          refine ⟨?_, hna, hnb⟩
          rw [hb, ← hc] at hs2
          rw [ha, hs2] at hs
          rw [hs]
          simp [SP]

theorem parseRequestLine_success (tbl : UnicodeTables) (text : GoString)
    (h : (parseRequestLine tbl text).2.1 ≠ 0) :
    ∃ method target, 32 ∉ method ∧ 32 ∉ target ∧
      text.take (parseRequestLine tbl text).2.1 =
        method ++ SP ++ target ++ SP ++ HTTP11 ++ CRLF ∧
      parseRequestLine tbl text =
        (⟨[49, 46, 49], target, method⟩,
          (method ++ SP ++ target ++ SP ++ HTTP11 ++ CRLF).length, none) := by
  obtain ⟨m, method, target, hidx, hm, hsplit, _, hp⟩ :=
    parseRequestLine_count_ne_zero tbl text h
  obtain ⟨hline, hnm, hnt⟩ := Split_SP_eq_three _ _ _ _ hsplit
  obtain ⟨h1, h2, _⟩ := (Index_some_iff _ _ _).mp hidx
  obtain ⟨t, ht⟩ := h1
  have htext : text = (method ++ SP ++ target ++ SP ++ HTTP11 ++ CRLF) ++ t := by
    rw [← hline, List.append_assoc, ht, List.take_append_drop]
  have hlen : (method ++ SP ++ target ++ SP ++ HTTP11 ++ CRLF).length = m + 2 := by
    rw [← hline]
    simp [CRLF, Nat.min_eq_left h2]
  refine ⟨method, target, hnm, hnt, ?_, ?_⟩
  · rw [hp]
    show text.take (m + 2) = _
    rw [← hlen]
    conv_lhs => rw [htext]
    rw [List.take_left]
  · rw [hp, hlen]

/-- C10, as the code has it: `parse` succeeds on a line whose method is empty
and on a line whose target is empty. -/
theorem parse_empty_fields :
    ((Request.parse noTables newRequest (ascii " / HTTP/1.1\r\n")).1.State = Done ∧
      (Request.parse noTables newRequest (ascii " / HTTP/1.1\r\n")).1.RequestLine.Method = []) ∧
    ((Request.parse noTables newRequest (ascii "GET  HTTP/1.1\r\n")).1.State = Done ∧
      (Request.parse noTables newRequest
        (ascii "GET  HTTP/1.1\r\n")).1.RequestLine.RequestTarget = []) := by
  decide

/-- C10, amended. When `parse` in state `Initialized` succeeds, `HttpVersion` is
the non-empty string `1.1` and the bytes consumed are
`Method SP RequestTarget SP "HTTP/1.1" CRLF` with no space in `Method` or
`RequestTarget`; `Method` is non-empty exactly when the buffer does not start
with a space, and `RequestTarget` exactly when the byte after the first space
is not a space. -/
theorem parse_fields (tbl : UnicodeTables) (r : Request) (data : GoString)
    (hS : r.State = Initialized) (hD : (Request.parse tbl r data).1.State = Done) :
    (Request.parse tbl r data).1.RequestLine.HttpVersion = ascii "1.1" ∧
    (Request.parse tbl r data).1.RequestLine.HttpVersion ≠ [] ∧
    32 ∉ (Request.parse tbl r data).1.RequestLine.Method ∧
    32 ∉ (Request.parse tbl r data).1.RequestLine.RequestTarget ∧
    data.take (Request.parse tbl r data).2.1 =
      (Request.parse tbl r data).1.RequestLine.Method ++ SP ++
        (Request.parse tbl r data).1.RequestLine.RequestTarget ++ SP ++ HTTP11 ++ CRLF ∧
    ((Request.parse tbl r data).1.RequestLine.Method ≠ [] ↔ data.head? ≠ some 32) ∧
    ((Request.parse tbl r data).1.RequestLine.RequestTarget ≠ [] ↔
      data[(Request.parse tbl r data).1.RequestLine.Method.length + 1]? ≠ some 32) := by
  have hne : r.State ≠ Done := by rw [hS]; decide
  have h0 : (parseRequestLine tbl data).2.1 ≠ 0 := by
    intro h0
    unfold Request.parse at hD
    rw [if_pos hS, if_pos h0] at hD
    exact hne hD
  obtain ⟨method, target, hnm, hnt, htake, hp⟩ := parseRequestLine_success tbl data h0
  have hparse : Request.parse tbl r data =
      (⟨⟨[49, 46, 49], target, method⟩, Done⟩,
        (method ++ SP ++ target ++ SP ++ HTTP11 ++ CRLF).length, none) := by
    unfold Request.parse
    rw [if_pos hS, if_neg h0, hp]
    simp
  rw [hp] at htake
  have hdata : data = method ++ 32 :: (target ++ 32 :: (HTTP11 ++ CRLF ++
      data.drop (method ++ SP ++ target ++ SP ++ HTTP11 ++ CRLF).length)) := by
    conv_lhs => rw [← List.take_append_drop
      (method ++ SP ++ target ++ SP ++ HTTP11 ++ CRLF).length data, htake]
    simp [SP]
  rw [hparse]
  refine ⟨(by decide : [49, 46, 49] = ascii "1.1"), by simp, hnm, hnt, htake, ?_, ?_⟩
  · show method ≠ [] ↔ data.head? ≠ some 32
    rw [hdata]
    cases method with
    | nil => simp
    | cons x xs =>
      have : x ≠ 32 := fun e => hnm (by simp [e])
      simp [this]
  · show target ≠ [] ↔ data[method.length + 1]? ≠ some 32
    rw [hdata, List.getElem?_append_right (by omega)]
    have e : method.length + 1 - method.length = 1 := by omega
    rw [e]
    cases target with
    | nil => simp
    | cons x xs =>
      have : x ≠ 32 := fun e => hnt (by simp [e])
      simp [this]

/-- Instance of C10 as amended, at a line whose method is empty. -/
theorem parse_fields_witness :
    (Request.parse noTables newRequest (ascii " / HTTP/1.1\r\nHost")).1.RequestLine.HttpVersion =
      ascii "1.1" ∧
    (Request.parse noTables newRequest (ascii " / HTTP/1.1\r\nHost")).1.RequestLine.HttpVersion ≠
      [] ∧
    32 ∉ (Request.parse noTables newRequest (ascii " / HTTP/1.1\r\nHost")).1.RequestLine.Method ∧
    32 ∉ (Request.parse noTables newRequest
      (ascii " / HTTP/1.1\r\nHost")).1.RequestLine.RequestTarget ∧
    (ascii " / HTTP/1.1\r\nHost").take
        (Request.parse noTables newRequest (ascii " / HTTP/1.1\r\nHost")).2.1 =
      (Request.parse noTables newRequest (ascii " / HTTP/1.1\r\nHost")).1.RequestLine.Method ++ SP ++
        (Request.parse noTables newRequest
          (ascii " / HTTP/1.1\r\nHost")).1.RequestLine.RequestTarget ++ SP ++ HTTP11 ++ CRLF ∧
    ((Request.parse noTables newRequest (ascii " / HTTP/1.1\r\nHost")).1.RequestLine.Method ≠ [] ↔
      (ascii " / HTTP/1.1\r\nHost").head? ≠ some 32) ∧
    ((Request.parse noTables newRequest
        (ascii " / HTTP/1.1\r\nHost")).1.RequestLine.RequestTarget ≠ [] ↔
      (ascii " / HTTP/1.1\r\nHost")[(Request.parse noTables newRequest
        (ascii " / HTTP/1.1\r\nHost")).1.RequestLine.Method.length + 1]? ≠ some 32) :=
  parse_fields noTables newRequest (ascii " / HTTP/1.1\r\nHost") rfl (by decide)

/-- C7. End of stream before any CRLF: on an empty stream, and on the bytes
`GET / HTTP/1.1` followed by end of stream, `RequestFromReader` returns a nil
request and the done-state error of `parse`, not a `Done` request with a nil
error. -/
theorem RequestFromReader_eof_before_line :
    RequestFromReader noTables [⟨[], some GoError.EOF⟩] =
        some (Result.returned none (some GoError.doneState), []) ∧
      RequestFromReader noTables
          [⟨ascii "GET / HT", none⟩, ⟨ascii "TP/1.1", none⟩, ⟨[], some GoError.EOF⟩] =
        some (Result.returned none (some GoError.doneState), []) := by
  decide

/-- C8. Final chunk together with end of stream: when the last read delivers
the rest of a well-formed line and reports end of stream in the same call,
`RequestFromReader` returns a nil request and the done-state error, while the
same bytes delivered without the end-of-stream indication give the request
line. -/
theorem RequestFromReader_final_chunk_with_eof :
    RequestFromReader noTables
        [⟨ascii "GET / HT", none⟩, ⟨ascii "TP/1.1\r\n", some GoError.EOF⟩] =
        some (Result.returned none (some GoError.doneState), []) ∧
      RequestFromReader noTables [⟨ascii "GET / HT", none⟩, ⟨ascii "TP/1.1\r\n", none⟩] =
        some (Result.returned (some ⟨⟨ascii "1.1", ascii "/", ascii "GET"⟩, Done⟩) none, []) := by
  decide

end Requests

namespace Requests

theorem IsUpperLoop_eq_false_iff (tbl : UnicodeTables) (rs : List Nat) :
    IsUpperLoop tbl rs = false ↔
      ∃ c ∈ rs, unicodeIsLetter tbl c = true ∧ unicodeIsUpper tbl c = false := by
  induction rs with
  | nil => simp [IsUpperLoop]
  | cons r rs ih =>
    rw [IsUpperLoop]
    cases hL : unicodeIsLetter tbl r <;> cases hU : unicodeIsUpper tbl r <;>
      simp [hL, hU, ih]

theorem IsUpper_eq_false_iff (tbl : UnicodeTables) (s : GoString) :
    IsUpper tbl s = false ↔
      ∃ c ∈ runes s, unicodeIsLetter tbl c = true ∧ unicodeIsUpper tbl c = false :=
  IsUpperLoop_eq_false_iff tbl (runes s)

/-- The result of `parseRequestLine` in each of its five cases. -/
theorem parseRequestLine_cases (tbl : UnicodeTables) (text : GoString) :
    (Index text CRLF = none ∧ parseRequestLine tbl text = (RequestLine.zero, 0, none)) ∨
    ∃ m, Index text CRLF = some m ∧
      (((Split (text.take m) SP).length ≠ 3 ∧
          parseRequestLine tbl text = (RequestLine.zero, 0, some GoError.notEnoughParts)) ∨
        ((Split (text.take m) SP).length = 3 ∧ (Split (text.take m) SP).getD 2 [] ≠ HTTP11 ∧
          parseRequestLine tbl text = (RequestLine.zero, 0, some GoError.ErrUnsupported)) ∨
        ((Split (text.take m) SP).length = 3 ∧ (Split (text.take m) SP).getD 2 [] = HTTP11 ∧
          IsUpper tbl ((Split (text.take m) SP).getD 0 []) = false ∧
          parseRequestLine tbl text = (RequestLine.zero, 0, some GoError.ErrUnsupported)) ∨
        ((Split (text.take m) SP).length = 3 ∧ (Split (text.take m) SP).getD 2 [] = HTTP11 ∧
          IsUpper tbl ((Split (text.take m) SP).getD 0 []) = true ∧
          parseRequestLine tbl text =
            (⟨[49, 46, 49], (Split (text.take m) SP).getD 1 [],
              (Split (text.take m) SP).getD 0 []⟩, m + 2, none))) := by
  cases hidx : Index text CRLF with
  | none =>
    left
    refine ⟨rfl, ?_⟩
    unfold parseRequestLine
    simp [Contains, hidx]
  | some m =>
    right
    refine ⟨m, rfl, ?_⟩
    have hc : Contains text CRLF = true := by rw [Contains, hidx]; rfl
    have hhead := Split_CRLF_head text m hidx
    obtain ⟨_, h2, _⟩ := (Index_some_iff _ _ _).mp hidx
    have hlen : (text.take m).length = m := by simp [Nat.min_eq_left h2]
    have hver : (Split HTTP11 SLASH).getD 1 [] = [49, 46, 49] := by decide
    unfold parseRequestLine
    rw [hc]
    simp only [hhead, Bool.not_true, Bool.false_eq_true, if_false, hlen]
    by_cases hp : (Split (text.take m) SP).length = 3
    · rw [if_neg (not_not.mpr hp)]
      by_cases hv : (Split (text.take m) SP).getD 2 [] = HTTP11
      · rw [if_neg (not_not.mpr hv)]
        cases hu : IsUpper tbl ((Split (text.take m) SP).getD 0 []) with
        | false =>
          right; right; left
          exact ⟨hp, hv, rfl, rfl⟩
        | true =>
          right; right; right
          refine ⟨hp, hv, rfl, ?_⟩
          rw [hv, hver]
          rfl
      · rw [if_pos hv]
        right; left
        exact ⟨hp, hv, rfl⟩
    · rw [if_pos hp]
      left
      exact ⟨hp, rfl⟩

/-- C11. Validation rule of `parseRequestLine`: it returns an error exactly when
the buffer has a CRLF and the bytes before the first CRLF do not split on
single spaces into three tokens, or have a third token other than `HTTP/1.1`,
or have a first token with a letter that is not uppercase; `IsUpper` is false
exactly when such a letter exists, so the empty method and digits or symbols
pass; with an error the count is 0 and the request line is empty. -/
theorem parseRequestLine_error_iff (tbl : UnicodeTables) (text : GoString) :
    ((parseRequestLine tbl text).2.2 ≠ none ↔
      ∃ m, Index text CRLF = some m ∧
        ((Split (text.take m) SP).length ≠ 3 ∨
          (Split (text.take m) SP).getD 2 [] ≠ HTTP11 ∨
          ∃ c ∈ runes ((Split (text.take m) SP).getD 0 []),
            unicodeIsLetter tbl c = true ∧ unicodeIsUpper tbl c = false)) ∧
    ((parseRequestLine tbl text).2.2 = none ∨
      ((parseRequestLine tbl text).2.1 = 0 ∧
        (parseRequestLine tbl text).1 = RequestLine.zero)) ∧
    (IsUpper tbl (ascii "") = true ∧ IsUpper tbl (ascii "G3T-_/1") = true) := by
  refine ⟨?_, ?_, rfl, rfl⟩
  · rcases parseRequestLine_cases tbl text with ⟨hi, hp⟩ | ⟨m, hi, h⟩
    · rw [hp, hi]
      simp
    · have hex : ∀ P : Nat → Prop, (∃ k, Index text CRLF = some k ∧ P k) ↔ P m := by
        intro P
        constructor
        · rintro ⟨k, hk, hP⟩
          rw [hi] at hk
          cases hk
          exact hP
        · intro hP
          exact ⟨m, hi, hP⟩
      rw [hex, ← IsUpper_eq_false_iff]
      rcases h with ⟨h3, hp⟩ | ⟨h3, hv, hp⟩ | ⟨h3, hv, hu, hp⟩ | ⟨h3, hv, hu, hp⟩
      · rw [hp]
        exact ⟨fun _ => Or.inl h3, fun _ => by simp⟩
      · rw [hp]
        exact ⟨fun _ => Or.inr (Or.inl hv), fun _ => by simp⟩
      · rw [hp]
        exact ⟨fun _ => Or.inr (Or.inr hu), fun _ => by simp⟩
      · rw [hp]
        constructor
        · intro h
          exact absurd rfl h
        · rintro (h | h | h)
          · exact absurd h3 h
          · exact absurd hv h
          · rw [hu] at h; cases h
  · rcases parseRequestLine_cases tbl text with ⟨_, hp⟩ | ⟨m, _, h⟩
    · rw [hp]; simp
    · rcases h with ⟨_, hp⟩ | ⟨_, _, hp⟩ | ⟨_, _, _, hp⟩ | ⟨_, _, _, hp⟩ <;> rw [hp] <;> simp

/-- C12, as the code has it: a lowercase method and an unsupported version
give one and the same error value, `errors.ErrUnsupported`. -/
theorem parseRequestLine_same_error :
    (parseRequestLine noTables (ascii "get / HTTP/1.1\r\n")).2.2 = some GoError.ErrUnsupported ∧
    (parseRequestLine noTables (ascii "GET / HTTP/2.0\r\n")).2.2 = some GoError.ErrUnsupported ∧
    (parseRequestLine noTables (ascii "get / HTTP/1.1\r\n")).2.2 =
      (parseRequestLine noTables (ascii "GET / HTTP/2.0\r\n")).2.2 := by
  decide

/-- C12, amended. For a three-token request line whose version token is not
`HTTP/1.1` or whose method has a letter that is not uppercase,
`parseRequestLine` returns `errors.ErrUnsupported` in both cases, an error that
differs from the one for a line without three tokens. -/
theorem parseRequestLine_unsupported (tbl : UnicodeTables) (text : GoString) (m : Nat)
    (hidx : Index text CRLF = some m) (h3 : (Split (text.take m) SP).length = 3)
    (hbad : (Split (text.take m) SP).getD 2 [] ≠ HTTP11 ∨
      ∃ c ∈ runes ((Split (text.take m) SP).getD 0 []),
        unicodeIsLetter tbl c = true ∧ unicodeIsUpper tbl c = false) :
    (parseRequestLine tbl text).2.2 = some GoError.ErrUnsupported ∧
      (parseRequestLine tbl text).2.2 ≠ some GoError.notEnoughParts := by
  rw [← IsUpper_eq_false_iff] at hbad
  have key : (parseRequestLine tbl text).2.2 = some GoError.ErrUnsupported := by
    rcases parseRequestLine_cases tbl text with ⟨hi, _⟩ | ⟨k, hi, h⟩
    · rw [hidx] at hi; cases hi
    · rw [hidx] at hi
      cases hi
      rcases h with ⟨h3n, _⟩ | ⟨_, _, hp⟩ | ⟨_, _, _, hp⟩ | ⟨_, hv, hu, _⟩
      · exact absurd h3 h3n
      · rw [hp]
      · rw [hp]
      · rcases hbad with hb | hb
        · exact absurd hv hb
        · rw [hu] at hb; cases hb
  exact ⟨key, by rw [key]; decide⟩

/-- Instance of C12 as amended, at a lowercase method. -/
theorem parseRequestLine_unsupported_witness :
    (parseRequestLine noTables (ascii "get / HTTP/1.1\r\n")).2.2 = some GoError.ErrUnsupported ∧
      (parseRequestLine noTables (ascii "get / HTTP/1.1\r\n")).2.2 ≠
        some GoError.notEnoughParts :=
  parseRequestLine_unsupported noTables (ascii "get / HTTP/1.1\r\n") 14 (by decide) (by decide)
    (by decide)

end Requests

namespace Auth

open Requests

/-- C13. `GetBearerToken` extracts the token: when the `Authorization` header
value is `Bearer ` followed by a non-empty token, it returns that token and a
nil error. -/
theorem GetBearerToken_bearer (headers : Header) (t : GoString) (ht : t ≠ [])
    (hget : headers.Get Authorization = ascii "Bearer " ++ t) :
    GetBearerToken headers = (t, none) := by
  have hb : (ascii "Bearer ").length = 7 := by decide
  have hdrop : (ascii "Bearer " ++ t).drop 7 = t := by
    rw [← hb, List.drop_left]
  have hlen : ¬ (ascii "Bearer " ++ t).length < 7 := by
    rw [List.length_append, hb]; omega
  have htl : ¬ t.length = 0 := fun h => ht (List.length_eq_zero.mp h)
  unfold GetBearerToken
  rw [hget, if_neg hlen, hdrop, if_neg htl]

/-- Instance of C13: the header set as in `TestGetBearerToken`. -/
theorem GetBearerToken_bearer_witness :
    GetBearerToken (Header.empty.Set Authorization (ascii "Bearer " ++ ascii "test-token")) =
      (ascii "test-token", none) :=
  GetBearerToken_bearer (Header.empty.Set Authorization (ascii "Bearer " ++ ascii "test-token"))
    (ascii "test-token") (by decide) (by decide)

end Auth

namespace TcpListener

open Requests

/-- C15. A chunk with two newlines: `getLinesChannel` sends `a` and `b` and
closes the channel, while the bytes read split on the newline into `a`, `b`
and `c`; a chunk `a`, newline, newline, `b` loses `b` likewise. -/
theorem getLinesChannel_two_newlines :
    getLinesChannel [⟨ascii "a\nb\nc", none⟩, ⟨[], some GoError.EOF⟩] =
        some (Outcome.closed [ascii "a", ascii "b"]) ∧
      Split (ascii "a\nb\nc") LF = [ascii "a", ascii "b", ascii "c"] ∧
      getLinesChannel [⟨ascii "a\n\nb", some GoError.EOF⟩] =
        some (Outcome.closed [ascii "a"]) ∧
      Split (ascii "a\n\nb") LF = [ascii "a", [], ascii "b"] := by
  decide

end TcpListener

namespace Requests

/-! ## The accumulation buffer -/

theorem copy_length (dst src : List Byte) : (copy dst src).length = dst.length := by
  simp only [copy, List.length_append, List.length_take, List.length_drop]
  omega

theorem parse_result_count_le (tbl : UnicodeTables) (r : Request) (data : GoString) :
    (Request.parse tbl r data).2.1 ≤ data.length := by
  unfold Request.parse
  split
  · split
    · exact Nat.zero_le _
    · next h0 =>
      split
      · exact Nat.zero_le _
      · obtain ⟨m, _, _, _, hm, _, _, hp⟩ := parseRequestLine_count_ne_zero tbl data h0
        rw [hp]
        exact hm
  · split <;> exact Nat.zero_le _

/-- The invariant of the loop of `RequestFromReader` on the buffer and the
write index. -/
theorem grow_inv (s : DriverState) (hle : s.readToIndex ≤ s.buf.length)
    (hk : ∃ k, s.buf.length = 8 * 2 ^ k) :
    (grow s).readToIndex < (grow s).buf.length ∧ ∃ k, (grow s).buf.length = 8 * 2 ^ k := by
  obtain ⟨k, hk⟩ := hk
  have hpos : 0 < 2 ^ k := Nat.pow_pos (by decide)
  rw [grow_readToIndex, grow_buf_length]
  split
  · refine ⟨by omega, k + 1, ?_⟩
    rw [hk, Nat.pow_succ]
    ring
  · exact ⟨by omega, k, hk⟩

/-- The request handed to `parse` after a read: `Done` on end of stream. -/
theorem iteration_fit (tbl : UnicodeTables) (g : DriverState) (rd : ReadResult)
    (hi : g.readToIndex ≤ g.buf.length) (hc : rd.data.length ≤ g.buf.length - g.readToIndex)
    (req : Request)
    (hreq : req = if rd.err = some GoError.EOF then { g.request with State := Done }
      else g.request) :
    iteration tbl g rd =
      if rd.err ≠ none ∧ rd.err ≠ some GoError.EOF then
        Step.stop (Result.returned none rd.err)
      else if (Request.parse tbl req (g.buf.take g.readToIndex ++ rd.data)).2.2 ≠ none then
        Step.stop (Result.returned none
          (Request.parse tbl req (g.buf.take g.readToIndex ++ rd.data)).2.2)
      else if (Request.parse tbl req (g.buf.take g.readToIndex ++ rd.data)).2.1 = 0 then
        Step.next ⟨g.buf.take g.readToIndex ++ copy (g.buf.drop g.readToIndex) rd.data,
          g.readToIndex + rd.data.length,
          (Request.parse tbl req (g.buf.take g.readToIndex ++ rd.data)).1⟩
      else
        Step.next ⟨copy (g.buf.take g.readToIndex ++ copy (g.buf.drop g.readToIndex) rd.data)
            ((g.buf.take g.readToIndex ++ rd.data).drop
              (Request.parse tbl req (g.buf.take g.readToIndex ++ rd.data)).2.1),
          g.readToIndex + rd.data.length -
            (Request.parse tbl req (g.buf.take g.readToIndex ++ rd.data)).2.1,
          (Request.parse tbl req (g.buf.take g.readToIndex ++ rd.data)).1⟩ := by
  have hlen := read_into_length g.buf rd.data g.readToIndex hi hc
  have htake := read_into_take g.buf rd.data g.readToIndex hi hc
  have hcount := parse_result_count_le tbl req (g.buf.take g.readToIndex ++ rd.data)
  have hpl : (g.buf.take g.readToIndex ++ rd.data).length = g.readToIndex + rd.data.length := by
    simp [Nat.min_eq_left hi]
  unfold iteration
  simp only [hlen, htake, ← hreq]
  by_cases h1 : rd.err ≠ none ∧ rd.err ≠ some GoError.EOF
  · rw [if_pos h1, if_pos h1]
  · rw [if_neg h1, if_neg h1, if_neg (by omega)]
    by_cases h2 : (Request.parse tbl req (g.buf.take g.readToIndex ++ rd.data)).2.2 ≠ none
    · rw [if_pos h2, if_pos h2]
    · rw [if_neg h2, if_neg h2]
      by_cases h3 : (Request.parse tbl req (g.buf.take g.readToIndex ++ rd.data)).2.1 = 0
      · rw [if_pos h3, if_pos h3]
      · rw [if_neg h3, if_neg h3, if_neg (by omega)]

theorem iteration_next_inv (tbl : UnicodeTables) (g s1 : DriverState) (rd : ReadResult)
    (hi : g.readToIndex ≤ g.buf.length) (hc : rd.data.length ≤ g.buf.length - g.readToIndex)
    (h : iteration tbl g rd = Step.next s1) :
    s1.readToIndex ≤ s1.buf.length ∧ s1.buf.length = g.buf.length := by
  have hlen := read_into_length g.buf rd.data g.readToIndex hi hc
  have key := iteration_fit tbl g rd hi hc _ rfl
  generalize (if rd.err = some GoError.EOF then { g.request with State := Done }
    else g.request) = req at key
  generalize Request.parse tbl req (g.buf.take g.readToIndex ++ rd.data) = P at key
  rw [key] at h
  by_cases h1 : rd.err ≠ none ∧ rd.err ≠ some GoError.EOF
  · rw [if_pos h1] at h
    cases h
  · rw [if_neg h1] at h
    by_cases h2 : P.2.2 ≠ none
    · rw [if_pos h2] at h
      cases h
    · rw [if_neg h2] at h
      by_cases h3 : P.2.1 = 0
      · rw [if_pos h3] at h
        cases h
        exact ⟨by show g.readToIndex + rd.data.length ≤ _; rw [hlen]; omega, hlen⟩
      · rw [if_neg h3] at h
        cases h
        refine ⟨?_, ?_⟩
        · show g.readToIndex + rd.data.length - _ ≤ (copy _ _).length
          rw [copy_length, hlen]; omega
        · show (copy _ _).length = _
          rw [copy_length, hlen]

theorem iteration_ne_panicked (tbl : UnicodeTables) (g : DriverState) (rd : ReadResult)
    (hi : g.readToIndex ≤ g.buf.length) (hc : rd.data.length ≤ g.buf.length - g.readToIndex) :
    iteration tbl g rd ≠ Step.stop Result.panicked := by
  have key := iteration_fit tbl g rd hi hc _ rfl
  generalize (if rd.err = some GoError.EOF then { g.request with State := Done }
    else g.request) = req at key
  generalize Request.parse tbl req (g.buf.take g.readToIndex ++ rd.data) = P at key
  rw [key]
  by_cases h1 : rd.err ≠ none ∧ rd.err ≠ some GoError.EOF
  · rw [if_pos h1]; simp
  · rw [if_neg h1]
    by_cases h2 : P.2.2 ≠ none
    · rw [if_pos h2]; simp
    · rw [if_neg h2]
      by_cases h3 : P.2.1 = 0
      · rw [if_pos h3]; simp
      · rw [if_neg h3]; simp

theorem Reachable_inv (tbl : UnicodeTables) (s : DriverState) (h : Reachable tbl s) :
    s.readToIndex ≤ s.buf.length ∧ ∃ k, s.buf.length = 8 * 2 ^ k := by
  induction h with
  | init => exact ⟨Nat.zero_le _, 0, by simp [make, bufferSize]⟩
  | step s s1 rd _ _ hfit hit ih =>
    obtain ⟨hlt, hk⟩ := grow_inv s ih.1 ih.2
    obtain ⟨h1, h2⟩ := iteration_next_inv tbl (grow s) s1 rd (Nat.le_of_lt hlt) hfit hit
    exact ⟨h1, by rw [h2]; exact hk⟩

end Requests

namespace Requests

/-- C14. Accumulation-buffer invariant of `RequestFromReader`: at the head of
every loop iteration `readToIndex <= len(buf)` and `len(buf)` is 8 times a
power of two; the buffer grows, to exactly twice its length, only when
`readToIndex = len(buf)`, and growth keeps `buf[:readToIndex]`; the region
given to the read is non-empty; after a read that returns no more bytes than
the region holds, `parse` sees the pending bytes followed by those read and
returns a count no greater than `readToIndex`, and no slice expression is out
of range. -/
theorem RequestFromReader_buffer_invariant (tbl : UnicodeTables) (s : DriverState)
    (rd : ReadResult) (hR : Reachable tbl s)
    (hfit : rd.data.length ≤ (grow s).buf.length - (grow s).readToIndex) :
    s.readToIndex ≤ s.buf.length ∧
    (∃ k, s.buf.length = 8 * 2 ^ k) ∧
    ((s.readToIndex = s.buf.length ∧ (grow s).buf.length = s.buf.length * 2) ∨
      (s.readToIndex ≠ s.buf.length ∧ grow s = s)) ∧
    (grow s).buf.take s.readToIndex = s.buf.take s.readToIndex ∧
    (grow s).readToIndex = s.readToIndex ∧
    (grow s).buf.drop (grow s).readToIndex ≠ [] ∧
    ((grow s).buf.take (grow s).readToIndex ++
        copy ((grow s).buf.drop (grow s).readToIndex) rd.data).take
        (s.readToIndex + rd.data.length) = s.buf.take s.readToIndex ++ rd.data ∧
    (∀ req : Request,
      (Request.parse tbl req (s.buf.take s.readToIndex ++ rd.data)).2.1 ≤
        s.readToIndex + rd.data.length) ∧
    ¬ (grow s).buf.length < (grow s).readToIndex ∧
    iteration tbl (grow s) rd ≠ Step.stop Result.panicked := by
  obtain ⟨hle, hk⟩ := Reachable_inv tbl s hR
  obtain ⟨hlt, _⟩ := grow_inv s hle hk
  have hpl : (s.buf.take s.readToIndex ++ rd.data).length = s.readToIndex + rd.data.length := by
    simp [Nat.min_eq_left hle]
  refine ⟨hle, hk, ?_, grow_take s, grow_readToIndex s, ?_, ?_, ?_, by omega,
    iteration_ne_panicked tbl (grow s) rd (Nat.le_of_lt hlt) hfit⟩
  · by_cases hfull : s.readToIndex = s.buf.length
    · left
      refine ⟨hfull, ?_⟩
      rw [grow_buf_length, if_pos hfull]
    · right
      refine ⟨hfull, ?_⟩
      rw [grow, if_neg hfull]
  · intro hnil
    have := congrArg List.length hnil
    rw [List.length_drop, List.length_nil] at this
    omega
  · have ht := read_into_take (grow s).buf rd.data (grow s).readToIndex (Nat.le_of_lt hlt) hfit
    rw [grow_readToIndex] at ht ⊢
    rw [ht, grow_take]
  · intro req
    have := parse_result_count_le tbl req (s.buf.take s.readToIndex ++ rd.data)
    omega

/-- Instance of C14 at the second iteration, where the buffer of 8 bytes is
full and grows to 16. -/
theorem RequestFromReader_buffer_invariant_witness :
    (8 : Nat) ≤ (ascii "GET / HT").length ∧
    (∃ k, (ascii "GET / HT").length = 8 * 2 ^ k) ∧
    (((8 : Nat) = (ascii "GET / HT").length ∧
        (grow ⟨ascii "GET / HT", 8, newRequest⟩).buf.length = (ascii "GET / HT").length * 2) ∨
      ((8 : Nat) ≠ (ascii "GET / HT").length ∧
        grow ⟨ascii "GET / HT", 8, newRequest⟩ = ⟨ascii "GET / HT", 8, newRequest⟩)) ∧
    (grow ⟨ascii "GET / HT", 8, newRequest⟩).buf.take 8 = (ascii "GET / HT").take 8 ∧
    (grow ⟨ascii "GET / HT", 8, newRequest⟩).readToIndex = 8 ∧
    (grow ⟨ascii "GET / HT", 8, newRequest⟩).buf.drop
      (grow ⟨ascii "GET / HT", 8, newRequest⟩).readToIndex ≠ [] ∧
    ((grow ⟨ascii "GET / HT", 8, newRequest⟩).buf.take
          (grow ⟨ascii "GET / HT", 8, newRequest⟩).readToIndex ++
        copy ((grow ⟨ascii "GET / HT", 8, newRequest⟩).buf.drop
          (grow ⟨ascii "GET / HT", 8, newRequest⟩).readToIndex) (ascii "TP/1.1\r\n")).take
        (8 + (ascii "TP/1.1\r\n").length) = (ascii "GET / HT").take 8 ++ ascii "TP/1.1\r\n" ∧
    (∀ req : Request,
      (Request.parse noTables req ((ascii "GET / HT").take 8 ++ ascii "TP/1.1\r\n")).2.1 ≤
        8 + (ascii "TP/1.1\r\n").length) ∧
    ¬ (grow ⟨ascii "GET / HT", 8, newRequest⟩).buf.length <
      (grow ⟨ascii "GET / HT", 8, newRequest⟩).readToIndex ∧
    iteration noTables (grow ⟨ascii "GET / HT", 8, newRequest⟩) ⟨ascii "TP/1.1\r\n", none⟩ ≠
      Step.stop Result.panicked :=
  RequestFromReader_buffer_invariant noTables ⟨ascii "GET / HT", 8, newRequest⟩
    ⟨ascii "TP/1.1\r\n", none⟩
    (Reachable.step ⟨make bufferSize, 0, newRequest⟩ ⟨ascii "GET / HT", 8, newRequest⟩
      ⟨ascii "GET / HT", none⟩ Reachable.init (by decide) (by decide) (by decide))
    (by decide)

end Requests

namespace Requests

/-! ## Soundness of a successful result -/

theorem Index_append_of_some (s t sep : GoString) (m : Nat) (h : Index s sep = some m) :
    Index (s ++ t) sep = some m := by
  obtain ⟨h1, h2, h3⟩ := (Index_some_iff s sep m).mp h
  have hl := h1.length_le
  rw [List.length_drop] at hl
  rw [Index_some_iff]
  refine ⟨?_, by rw [List.length_append]; omega, ?_⟩
  · rw [List.drop_append_of_le_length h2]
    exact h1.trans (List.prefix_append _ _)
  · intro k hk hp
    have hkl : k ≤ s.length := by omega
    rw [List.drop_append_of_le_length hkl] at hp
    apply h3 k hk
    apply List.prefix_of_prefix_length_le hp (List.prefix_append _ _)
    rw [List.length_drop]
    omega

theorem parseRequestLine_append (tbl : UnicodeTables) (s t : GoString) (m : Nat)
    (h : Index s CRLF = some m) : parseRequestLine tbl (s ++ t) = parseRequestLine tbl s := by
  have h2 := Index_append_of_some s t CRLF m h
  obtain ⟨_, hle, _⟩ := (Index_some_iff s CRLF m).mp h
  have hc1 : Contains s CRLF = true := by rw [Contains, h]; rfl
  have hc2 : Contains (s ++ t) CRLF = true := by rw [Contains, h2]; rfl
  unfold parseRequestLine
  rw [hc1, hc2]
  simp only [Split_CRLF_head _ _ h, Split_CRLF_head _ _ h2, List.take_append_of_le_length hle]

theorem parse_Initialized_cases (tbl : UnicodeTables) (r : Request) (data : GoString)
    (hS : r.State = Initialized) :
    Request.parse tbl r data = (r, 0, none) ∨
      ((parseRequestLine tbl data).2.1 ≠ 0 ∧
        Request.parse tbl r data =
          (⟨(parseRequestLine tbl data).1, Done⟩, (parseRequestLine tbl data).2.1, none)) := by
  unfold Request.parse
  rw [if_pos hS]
  by_cases h0 : (parseRequestLine tbl data).2.1 = 0
  · left
    rw [if_pos h0]
  · right
    refine ⟨h0, ?_⟩
    obtain ⟨m, method, target, _, _, _, _, hp⟩ := parseRequestLine_count_ne_zero tbl data h0
    have he : ¬ (parseRequestLine tbl data).2.2 ≠ none := by rw [hp]; simp
    rw [if_neg h0, if_neg he]

/-- One pass of the loop body from state `Initialized`: it stops with something
other than a nil error, or it goes on with the bytes read appended to the
pending ones, or `parseRequestLine` succeeded on those bytes. -/
theorem iteration_cases (tbl : UnicodeTables) (g : DriverState) (rd : ReadResult)
    (hi : g.readToIndex ≤ g.buf.length) (hS : g.request.State = Initialized) :
    (∃ r, iteration tbl g rd = Step.stop r ∧ ∀ req, r ≠ Result.returned req none) ∨
    (∃ s1, iteration tbl g rd = Step.next s1 ∧ s1.request.State = Initialized ∧
      s1.readToIndex ≤ s1.buf.length ∧
      s1.buf.take s1.readToIndex = g.buf.take g.readToIndex ++ rd.data) ∨
    ((parseRequestLine tbl (g.buf.take g.readToIndex ++ rd.data)).2.1 ≠ 0 ∧
      ∃ s1, iteration tbl g rd = Step.next s1 ∧
        s1.request = ⟨(parseRequestLine tbl (g.buf.take g.readToIndex ++ rd.data)).1, Done⟩) := by
  have hBl : (g.buf.take g.readToIndex ++ copy (g.buf.drop g.readToIndex) rd.data).length =
      g.buf.length := by
    rw [List.length_append, copy_length, List.length_take, List.length_drop]
    omega
  by_cases hhard : rd.err ≠ none ∧ rd.err ≠ some GoError.EOF
  · left
    refine ⟨Result.returned none rd.err, ?_, ?_⟩
    · unfold iteration
      simp only
      rw [if_pos hhard]
    · intro req h
      exact hhard.1 (Result.returned.inj h).2
  · by_cases hfit : rd.data.length ≤ g.buf.length - g.readToIndex
    · have key := iteration_fit tbl g rd hi hfit _ rfl
      rw [if_neg hhard] at key
      by_cases heof : rd.err = some GoError.EOF
      · left
        have hD : ({ g.request with State := Done } : Request).State = Done := rfl
        have hp : Request.parse tbl { g.request with State := Done }
            (g.buf.take g.readToIndex ++ rd.data) =
            ({ g.request with State := Done }, 0, some GoError.doneState) := by
          unfold Request.parse
          rw [if_neg (by rw [hD]; decide), if_pos hD]
        rw [if_pos heof, hp] at key
        refine ⟨_, key, ?_⟩
        intro req h
        cases h
      · rw [if_neg heof] at key
        rcases parse_Initialized_cases tbl g.request (g.buf.take g.readToIndex ++ rd.data) hS
          with hp | ⟨h0, hp⟩
        · right; left
          rw [hp] at key
          refine ⟨_, key, hS, ?_, ?_⟩
          · show g.readToIndex + rd.data.length ≤ _
            rw [hBl]; omega
          · exact read_into_take g.buf rd.data g.readToIndex hi hfit
        · right; right
          rw [hp] at key
          simp only [ne_eq, not_true_eq_false, if_false] at key
          rw [if_neg h0] at key
          exact ⟨h0, _, key, rfl⟩
    · left
      refine ⟨Result.panicked, ?_, ?_⟩
      · unfold iteration
        simp only
        rw [if_neg hhard, hBl, if_pos (by omega)]
      · intro req h
        cases h

theorem bytesOf_cons (rd : ReadResult) (reads : List ReadResult) :
    bytesOf (rd :: reads) = rd.data ++ bytesOf reads := by
  simp [bytesOf]

theorem bytesOf_append (a b : List ReadResult) : bytesOf (a ++ b) = bytesOf a ++ bytesOf b := by
  simp [bytesOf]

theorem loop_sound (tbl : UnicodeTables) (script : List ReadResult) :
    ∀ (s : DriverState) (req : Option Request) (unread : List ReadResult),
      s.request.State = Initialized → s.readToIndex ≤ s.buf.length →
      loop tbl script s = some (Result.returned req none, unread) →
      ∃ consumed, script = consumed ++ unread ∧
        (parseRequestLine tbl (s.buf.take s.readToIndex ++ bytesOf consumed)).2.1 ≠ 0 ∧
        req = some ⟨(parseRequestLine tbl (s.buf.take s.readToIndex ++ bytesOf consumed)).1,
          Done⟩ := by
  induction script with
  | nil =>
    intro s req unread hS _ h
    have hnd : s.request.State ≠ Done := by rw [hS]; decide
    rw [loop, if_neg hnd] at h
    split at h <;> cases h
  | cons rd rest ih =>
    intro s req unread hS hle h
    have hnd : s.request.State ≠ Done := by rw [hS]; decide
    have hgle : (grow s).readToIndex ≤ (grow s).buf.length := by
      rw [grow_readToIndex, grow_buf_length]; split <;> omega
    have hb : ¬ (grow s).buf.length < (grow s).readToIndex := by omega
    rw [loop_cons tbl rd rest s hnd hb] at h
    have hgS : (grow s).request.State = Initialized := by rw [grow_request]; exact hS
    rcases iteration_cases tbl (grow s) rd hgle hgS with
      ⟨r, hit, hr⟩ | ⟨s1, hit, hS1, hle1, htake1⟩ | ⟨h0, s1, hit, hreq1⟩
    · rw [hit] at h
      simp only [Option.some.injEq, Prod.mk.injEq] at h
      exact absurd h.1 (hr req)
    · rw [hit] at h
      simp only at h
      obtain ⟨consumed, hc, hcount, hreq⟩ := ih s1 req unread hS1 hle1 h
      rw [htake1, grow_readToIndex, grow_take, List.append_assoc, ← bytesOf_cons] at hcount hreq
      exact ⟨rd :: consumed, by rw [hc]; rfl, hcount, hreq⟩
    · rw [hit] at h
      simp only at h
      have hD : s1.request.State = Done := by rw [hreq1]
      rw [loop_done tbl rest s1 hD] at h
      simp only [Option.some.injEq, Prod.mk.injEq, Result.returned.injEq, and_true] at h
      obtain ⟨hreq, hun⟩ := h
      rw [grow_readToIndex, grow_take] at h0 hreq1
      refine ⟨[rd], by rw [← hun]; rfl, ?_, ?_⟩
      · simpa [bytesOf] using h0
      · rw [← hreq, hreq1]
        simp [bytesOf]

end Requests

namespace Requests

/-- C16. Soundness of a successful `RequestFromReader` result: when it returns a
nil error, the request is non-nil and `Done`, the bytes of the stream have a
first CRLF, and the request line is the one `parseRequestLine` derives from the
bytes before it: the line splits on spaces into `Method`, `RequestTarget` and
`HTTP/1.1`, `HttpVersion` is `1.1`, every letter of `Method` is uppercase, and
the request line is not the empty one. -/
theorem RequestFromReader_sound (tbl : UnicodeTables) (reader unread : List ReadResult)
    (req : Option Request)
    (h : RequestFromReader tbl reader = some (Result.returned req none, unread)) :
    ∃ r m, req = some r ∧ r.State = Done ∧
      Index (bytesOf reader) CRLF = some m ∧
      parseRequestLine tbl (bytesOf reader) = (r.RequestLine, m + 2, none) ∧
      Split ((bytesOf reader).take m) SP =
        [r.RequestLine.Method, r.RequestLine.RequestTarget, HTTP11] ∧
      r.RequestLine.HttpVersion = ascii "1.1" ∧
      (∀ c ∈ runes r.RequestLine.Method,
        unicodeIsLetter tbl c = true → unicodeIsUpper tbl c = true) ∧
      r.RequestLine ≠ RequestLine.zero := by
  obtain ⟨consumed, hscript, h0, hreq⟩ := loop_sound tbl reader
    ⟨make bufferSize, 0, ⟨RequestLine.zero, Initialized⟩⟩ req unread rfl (Nat.zero_le _) h
  simp only [List.take_zero, List.nil_append] at h0 hreq
  obtain ⟨m, method, target, hidx, _, hsplit, hup, hp⟩ :=
    parseRequestLine_count_ne_zero tbl (bytesOf consumed) h0
  obtain ⟨_, hle, _⟩ := (Index_some_iff _ _ _).mp hidx
  have hbytes : bytesOf reader = bytesOf consumed ++ bytesOf unread := by
    rw [hscript, bytesOf_append]
  rw [hp] at hreq
  refine ⟨⟨⟨[49, 46, 49], target, method⟩, Done⟩, m, hreq, rfl, ?_, ?_, ?_,
    (by decide : [49, 46, 49] = ascii "1.1"), ?_, ?_⟩
  · rw [hbytes]
    exact Index_append_of_some _ _ _ _ hidx
  · rw [hbytes, parseRequestLine_append tbl _ _ m hidx, hp]
  · rw [hbytes, List.take_append_of_le_length hle]
    exact hsplit
  · intro c hc hL
    cases hU : unicodeIsUpper tbl c with
    | true => rfl
    | false =>
      have hfalse := (IsUpper_eq_false_iff tbl method).mpr ⟨c, hc, hL, hU⟩
      rw [hup] at hfalse
      cases hfalse
  · intro hz
    have := congrArg RequestLine.HttpVersion hz
    simp [RequestLine.zero] at this

/-- Instance of C16: a line delivered in two reads, with a third read that is
never asked for. -/
theorem RequestFromReader_sound_witness :
    ∃ r m, some (⟨⟨ascii "1.1", ascii "/", ascii "GET"⟩, Done⟩ : Request) = some r ∧
      r.State = Done ∧
      Index (bytesOf [⟨ascii "GET / HT", none⟩, ⟨ascii "TP/1.1\r\n", none⟩,
        ⟨ascii "Host: x", none⟩]) CRLF = some m ∧
      parseRequestLine noTables (bytesOf [⟨ascii "GET / HT", none⟩, ⟨ascii "TP/1.1\r\n", none⟩,
        ⟨ascii "Host: x", none⟩]) = (r.RequestLine, m + 2, none) ∧
      Split ((bytesOf [⟨ascii "GET / HT", none⟩, ⟨ascii "TP/1.1\r\n", none⟩,
        ⟨ascii "Host: x", none⟩]).take m) SP =
        [r.RequestLine.Method, r.RequestLine.RequestTarget, HTTP11] ∧
      r.RequestLine.HttpVersion = ascii "1.1" ∧
      (∀ c ∈ runes r.RequestLine.Method,
        unicodeIsLetter noTables c = true → unicodeIsUpper noTables c = true) ∧
      r.RequestLine ≠ RequestLine.zero :=
  RequestFromReader_sound noTables
    [⟨ascii "GET / HT", none⟩, ⟨ascii "TP/1.1\r\n", none⟩, ⟨ascii "Host: x", none⟩]
    [⟨ascii "Host: x", none⟩] (some ⟨⟨ascii "1.1", ascii "/", ascii "GET"⟩, Done⟩) (by decide)

end Requests
